import Mathlib

/-!
Flash device back ends: sparse chunk store and flat string store

A shallow embedding of `SparseDataDevice.h` and `StringFlashDevice.h`.

* `size_t` values are natural numbers below `sizeMod = 2 ^ 64`; every `+` and `-`
  the source performs on them is the wrapping `wadd` / `wsub`.
* `std::map<size_t, std::vector<uint8_t>>` is a key-ascending association list
  (`Chunks`); iteration order of the map is list order.
* `std::vector<uint8_t>` is `List Byte`.
* A method that mutates the device returns the error code together with the
  new device; `read` returns the error code together with the caller's buffer.
-/

namespace FlashDevice

/-- The error codes of `IFlashDevice::error`. -/
inductive Error where
  | none
  | open_error
  | close_error
  | read_error
  | write_error
  | erase_error
  | out_of_bounds
  deriving DecidableEq

/-- One `uint8_t`. -/
abbrev Byte := Fin 256

/-- The number of values of `size_t` (64-bit target). -/
def sizeMod : Nat := 18446744073709551616

/-- Addition on `size_t`: wraps modulo `2 ^ 64`. -/
def wadd (a b : Nat) : Nat := (a + b) % sizeMod

/-- Subtraction on `size_t`: wraps modulo `2 ^ 64`. -/
def wsub (a b : Nat) : Nat := (a + sizeMod - b % sizeMod) % sizeMod

/-- The contents of `std::map<size_t, std::vector<uint8_t>>`, in key order. -/
abbrev Chunks := List (Nat × List Byte)

/-- Keys strictly ascending: the representation invariant of `std::map`. -/
def SortedKeys (m : Chunks) : Prop := m.Pairwise (fun x y => x.1 < y.1)

instance (m : Chunks) : Decidable (SortedKeys m) := by
  unfold SortedKeys; infer_instance

/-- The map operation `m[k] = v` (insert, or assign when the key is present). -/
def mapInsert (k : Nat) (v : List Byte) : Chunks → Chunks
  | [] => [(k, v)]
  | (c, d) :: rest =>
    if k < c then (k, v) :: (c, d) :: rest
    else if k = c then (k, v) :: rest
    else (c, d) :: mapInsert k v rest

/-- The map operation `m.erase(k)`. -/
def mapErase (k : Nat) (m : Chunks) : Chunks := m.filter (fun x => decide (x.1 ≠ k))

/-- The vector operation `v.resize(n)`: truncates, or pads with value-initialised bytes. -/
def resize (v : List Byte) (n : Nat) : List Byte := v.take n ++ List.replicate (n - v.length) 0

/-- The effect of `std::copy(src.begin(), src.end(), dst.begin() + pos)` on `dst`.
`std::copy` requires `pos + src.length ≤ dst.length`. -/
def copyInto (dst : List Byte) (pos : Nat) (src : List Byte) : List Byte :=
  dst.take pos ++ src ++ dst.drop (pos + src.length)

/-- The class `SparseDataDevice`: its two data members. -/
structure SparseDataDevice where
  size_ : Nat
  chunks_ : Chunks
  deriving DecidableEq

namespace SparseDataDevice

/-- The constructor `SparseDataDevice(size)`: the map starts empty. -/
def mk_fresh (size : Nat) : SparseDataDevice := { size_ := size, chunks_ := [] }

/-- The member `size()`. -/
def size (dev : SparseDataDevice) : Nat := dev.size_

/-- The member `used_chunks()`. -/
def used_chunks (dev : SparseDataDevice) : Nat := dev.chunks_.length

/-- The range-for loop of `read` over the chunks not yet visited, acting on the
output buffer. -/
def readLoop (offset size : Nat) : Chunks → List Byte → List Byte
  | [], buf => buf
  | (coffset, cdata) :: rest, buf =>
    if coffset ≥ wadd offset size then buf
    else if wadd coffset cdata.length ≤ offset then readLoop offset size rest buf
    else
      let write_start := max coffset offset
      let write_end := min (wadd coffset cdata.length) (wadd offset size)
      let copy_size := wsub write_end write_start
      readLoop offset size rest
        (copyInto buf (wsub write_start offset)
          ((cdata.drop (wsub write_start coffset)).take copy_size))

/-- The member `read(data, offset, size)`; `data` is the caller's buffer and the
second component of the result is that buffer after the call. `read` assigns
neither `size_` nor `chunks_`, so the device after the call is the device before it. -/
def read (dev : SparseDataDevice) (data : List Byte) (offset size : Nat) : Error × List Byte :=
  if wadd offset size > dev.size_ then (Error.out_of_bounds, data)
  else (Error.none, readLoop offset size dev.chunks_ (List.replicate size 0xff))

/-- The range-for loop of `write` over the chunks not yet visited; `all` is the
whole map. Every branch that changes the map returns at once, so the result
is the map after the call, including the insertion after the loop. In the last
branch `coffset ≠ offset` (the branch before it takes every `coffset ≤ offset`),
so `cdata` still is the stored chunk when it is copied from. -/
def writeLoop (all : Chunks) (data : List Byte) (offset end_ : Nat) : Chunks → Chunks
  | [] => mapInsert offset data all
  | (coffset, cdata) :: rest =>
    let cend := wadd coffset cdata.length
    if coffset ≥ end_ then mapInsert offset data all
    else if cend ≤ offset then writeLoop all data offset end_ rest
    else if coffset = offset ∧ cdata.length = data.length then mapInsert coffset data all
    else if offset ≤ coffset ∧ end_ ≥ wadd cend (wsub coffset offset) then
      mapInsert offset data (mapErase coffset all)
    else if coffset ≤ offset ∧ cend ≥ offset then
      let resized := resize cdata (wsub (wadd cdata.length end_) cend)
      mapInsert coffset (copyInto resized (resized.length - data.length) data) all
    else if coffset ≤ end_ ∧ cend ≥ end_ then
      let additional := wsub cend end_
      let grown := resize data (wadd data.length additional)
      mapInsert offset
        (copyInto grown (grown.length - additional)
          (cdata.drop (wsub cdata.length additional))) all
    else writeLoop all data offset end_ rest

/-- The member `write(data, offset)`. -/
def write (dev : SparseDataDevice) (data : List Byte) (offset : Nat) : Error × SparseDataDevice :=
  if wadd offset data.length > dev.size_ then (Error.out_of_bounds, dev)
  else
    (Error.none,
      { dev with chunks_ := writeLoop dev.chunks_ data offset (wadd offset data.length) dev.chunks_ })

/-- The loop of `erase`: from `lower_bound(offset)` on, entries are removed while
their key is below `end_`. -/
def eraseLoop (offset end_ : Nat) (m : Chunks) : Chunks :=
  m.takeWhile (fun x => decide (x.1 < offset)) ++
    (m.dropWhile (fun x => decide (x.1 < offset))).dropWhile (fun x => decide (x.1 < end_))

/-- The member `erase(offset, size)`. -/
def erase (dev : SparseDataDevice) (offset size : Nat) : Error × SparseDataDevice :=
  if wadd offset size > dev.size_ then (Error.out_of_bounds, dev)
  else (Error.none, { dev with chunks_ := eraseLoop offset (wadd offset size) dev.chunks_ })

end SparseDataDevice

/-- The class `StringFlashDevice`: its `std::string data_`, one `Byte` per `char`
(storing a `uint8_t` in a `char` and reading it back is the identity). -/
structure StringFlashDevice where
  data_ : List Byte
  deriving DecidableEq

namespace StringFlashDevice

/-- The constructor `StringFlashDevice(size)`. -/
def mk_fresh (size : Nat) : StringFlashDevice := { data_ := List.replicate size 0xff }

/-- The member `size()`. -/
def size (dev : StringFlashDevice) : Nat := dev.data_.length

/-- The member `read(buffer, offset, size)`. -/
def read (dev : StringFlashDevice) (buffer : List Byte) (offset size : Nat) : Error × List Byte :=
  if wadd offset size > dev.data_.length then (Error.out_of_bounds, buffer)
  else (Error.none, copyInto (resize buffer size) 0 ((dev.data_.drop offset).take size))

/-- The member `write(buffer, offset)`. -/
def write (dev : StringFlashDevice) (buffer : List Byte) (offset : Nat) :
    Error × StringFlashDevice :=
  if wadd offset buffer.length > dev.data_.length then (Error.out_of_bounds, dev)
  else (Error.none, { data_ := copyInto dev.data_ offset buffer })

/-- The member `erase(offset, size)`. -/
def erase (dev : StringFlashDevice) (offset size : Nat) : Error × StringFlashDevice :=
  if wadd offset size > dev.data_.length then (Error.out_of_bounds, dev)
  else (Error.none, { data_ := copyInto dev.data_ offset (List.replicate size 0xff) })

end StringFlashDevice


/-- Chunk `x` stores a byte for address `a`. -/
def covers (x : Nat × List Byte) (a : Nat) : Prop := x.1 ≤ a ∧ a < x.1 + x.2.length

instance (x : Nat × List Byte) (a : Nat) : Decidable (covers x a) := by
  unfold covers; infer_instance

/-- The byte stored for address `a`: that of the last chunk in map order covering `a`. -/
def byteAt : Chunks → Nat → Option Byte
  | [], _ => none
  | x :: rest, a =>
    match byteAt rest a with
    | some b => some b
    | none => if covers x a then x.2[a - x.1]? else none

/-- No chunk's end `start + length` wraps around `size_t`. -/
def NoWrap (m : Chunks) : Prop := ∀ x ∈ m, x.1 + x.2.length < sizeMod

instance (m : Chunks) : Decidable (NoWrap m) := by
  unfold NoWrap; infer_instance

/-- Every chunk ends at or before `cap`. -/
def InCap (cap : Nat) (m : Chunks) : Prop := ∀ x ∈ m, x.1 + x.2.length ≤ cap

instance (cap : Nat) (m : Chunks) : Decidable (InCap cap m) := by
  unfold InCap; infer_instance

/-- A mutating call on a device: `write(data, offset)` or `erase(offset, size)`. -/
inductive Op where
  | write (data : List Byte) (offset : Nat)
  | erase (offset size : Nat)
  deriving DecidableEq

namespace Op

/-- The `offset` argument of a call. -/
def offset : Op → Nat
  | write _ o => o
  | erase o _ => o

/-- The length argument of a call: `data.size()` for a write, `size` for an erase. -/
def length : Op → Nat
  | write d _ => d.length
  | erase _ n => n

/-- Both arguments are values of `size_t`. -/
def WF (op : Op) : Prop := op.offset < sizeMod ∧ op.length < sizeMod

instance (op : Op) : Decidable op.WF := by
  unfold WF; infer_instance

/-- The sum `offset + length` of the call does not wrap around `size_t`. -/
def NoWrapArgs (op : Op) : Prop := op.offset + op.length < sizeMod

instance (op : Op) : Decidable op.NoWrapArgs := by
  unfold NoWrapArgs; infer_instance

/-- The call is in bounds: `offset + length ≤ cap` as natural numbers. -/
def InBounds (cap : Nat) (op : Op) : Prop := op.offset + op.length ≤ cap

instance (cap : Nat) (op : Op) : Decidable (op.InBounds cap) := by
  unfold InBounds; infer_instance

end Op

namespace SparseDataDevice

/-- One call on the sparse device. -/
def apply (dev : SparseDataDevice) : Op → Error × SparseDataDevice
  | Op.write data offset => dev.write data offset
  | Op.erase offset size => dev.erase offset size

/-- A sequence of calls, each on the device the previous one left. -/
def run (dev : SparseDataDevice) : List Op → SparseDataDevice
  | [] => dev
  | op :: ops => run (dev.apply op).2 ops

/-- The device states a fresh `SparseDataDevice(cap)` reaches by write and erase calls. -/
def Reachable (cap : Nat) (dev : SparseDataDevice) : Prop :=
  ∃ ops : List Op, (∀ op ∈ ops, op.WF) ∧ run (mk_fresh cap) ops = dev

end SparseDataDevice

namespace StringFlashDevice

/-- One call on the flat device. -/
def apply (dev : StringFlashDevice) : Op → Error × StringFlashDevice
  | Op.write data offset => dev.write data offset
  | Op.erase offset size => dev.erase offset size

/-- A sequence of calls, each on the device the previous one left. -/
def run (dev : StringFlashDevice) : List Op → StringFlashDevice
  | [] => dev
  | op :: ops => run (dev.apply op).2 ops

end StringFlashDevice

/-- The address ranges `[s, s + len)` of two chunks have no address in common
(an empty range has none at all). -/
def RangesDisjoint (x y : Nat × List Byte) : Prop :=
  x.2.length = 0 ∨ y.2.length = 0 ∨ x.1 + x.2.length ≤ y.1 ∨ y.1 + y.2.length ≤ x.1

instance (x y : Nat × List Byte) : Decidable (RangesDisjoint x y) := by
  unfold RangesDisjoint; infer_instance

/-- Any two distinct stored chunks have disjoint address ranges. -/
def ChunksDisjoint (m : Chunks) : Prop := ∀ x ∈ m, ∀ y ∈ m, x ≠ y → RangesDisjoint x y

instance (m : Chunks) : Decidable (ChunksDisjoint m) := by
  unfold ChunksDisjoint; infer_instance

/-- No stored chunk ends exactly at the start offset of another stored chunk. -/
def NonAdjacent (m : Chunks) : Prop := ∀ x ∈ m, ∀ y ∈ m, x ≠ y → x.1 + x.2.length ≠ y.1

instance (m : Chunks) : Decidable (NonAdjacent m) := by
  unfold NonAdjacent; infer_instance

/-- No stored chunk starts strictly inside `(offset, end_)`. -/
def NoInnerStart (m : Chunks) (offset end_ : Nat) : Prop := ∀ x ∈ m, offset < x.1 → end_ ≤ x.1

instance (m : Chunks) (offset end_ : Nat) : Decidable (NoInnerStart m offset end_) := by
  unfold NoInnerStart; infer_instance

/-- Every call of a sequence satisfies `ok` on the device state it is issued on. -/
def AllowedRun (ok : SparseDataDevice → Op → Prop) : SparseDataDevice → List Op → Prop
  | _, [] => True
  | dev, op :: ops => ok dev op ∧ AllowedRun ok (dev.apply op).2 ops

instance decidableAllowedRun (ok : SparseDataDevice → Op → Prop)
    [inst : ∀ d o, Decidable (ok d o)] :
    ∀ (dev : SparseDataDevice) (ops : List Op), Decidable (AllowedRun ok dev ops)
  | _, [] => isTrue trivial
  | dev, op :: ops =>
    match inst dev op, decidableAllowedRun ok (dev.apply op).2 ops with
    | isTrue h1, isTrue h2 => isTrue ⟨h1, h2⟩
    | isFalse h1, _ => isFalse (fun h => h1 h.1)
    | _, isFalse h2 => isFalse (fun h => h2 h.2)

/-- A call that does not wrap around `size_t` and, when it is a write the bounds
check accepts, finds no stored chunk starting strictly inside the written range. -/
def NoInnerStartCall (dev : SparseDataDevice) : Op → Prop
  | Op.write data offset =>
    offset + data.length < sizeMod ∧
      (offset + data.length ≤ dev.size_ →
        NoInnerStart dev.chunks_ offset (offset + data.length))
  | Op.erase offset size => offset + size < sizeMod

instance (dev : SparseDataDevice) (op : Op) : Decidable (NoInnerStartCall dev op) := by
  cases op <;> (unfold NoInnerStartCall; infer_instance)

/-- A write the bounds check accepts, of at least one byte, issued when no stored
chunk starts inside `(offset, end]` and no stored chunk ends exactly at `offset`
(`end = offset + data.length`). -/
def MergingWrite (dev : SparseDataDevice) : Op → Prop
  | Op.write data offset =>
    1 ≤ data.length ∧ offset + data.length ≤ dev.size_ ∧
      (∀ x ∈ dev.chunks_, offset < x.1 → offset + data.length < x.1) ∧
      (∀ x ∈ dev.chunks_, x.1 + x.2.length ≠ offset)
  | Op.erase _ _ => False

instance (dev : SparseDataDevice) (op : Op) : Decidable (MergingWrite dev op) := by
  cases op <;> (unfold MergingWrite; infer_instance)

/-- A call that does not wrap around `size_t` and, when the bounds check accepts
it, meets only whole chunks: an accepted write finds every stored chunk either
starting at or after its end, or starting at or before `offset` and ending at or
before its end; an accepted erase finds no stored chunk reaching into the erased
range from below or out of it at the top. -/
def CleanCall (dev : SparseDataDevice) : Op → Prop
  | Op.write data offset =>
    offset + data.length < sizeMod ∧
      (offset + data.length ≤ dev.size_ →
        ∀ x ∈ dev.chunks_, (offset < x.1 → offset + data.length ≤ x.1) ∧
          (x.1 ≤ offset → x.1 + x.2.length ≤ offset + data.length))
  | Op.erase offset size =>
    offset + size < sizeMod ∧
      (offset + size ≤ dev.size_ →
        ∀ x ∈ dev.chunks_, (x.1 < offset → x.1 + x.2.length ≤ offset) ∧
          (offset ≤ x.1 → x.1 < offset + size → x.1 + x.2.length ≤ offset + size))

instance (dev : SparseDataDevice) (op : Op) : Decidable (CleanCall dev op) := by
  cases op <;> (unfold CleanCall; infer_instance)

namespace SparseDataDevice

/-- The error codes the calls of a sequence return, in order. -/
def errors (dev : SparseDataDevice) : List Op → List Error
  | [] => []
  | op :: ops => (dev.apply op).1 :: errors (dev.apply op).2 ops

end SparseDataDevice

namespace StringFlashDevice

/-- The error codes the calls of a sequence return, in order. -/
def errors (dev : StringFlashDevice) : List Op → List Error
  | [] => []
  | op :: ops => (dev.apply op).1 :: errors (dev.apply op).2 ops

end StringFlashDevice

/-- Chunk `x` intersects the range `[offset, end_)`. -/
def intersects (x : Nat × List Byte) (offset end_ : Nat) : Prop :=
  x.1 < end_ ∧ offset < x.1 + x.2.length

instance (x : Nat × List Byte) (offset end_ : Nat) : Decidable (intersects x offset end_) := by
  unfold intersects; infer_instance

/-- The `return` the scan of `write` leaves by, with the chunk it is taken at:
the insertion after the loop (also reached by `break`), the exact replace, the
containment branch, the overlap-from-below branch, the overlap-from-above branch. -/
inductive Branch where
  | insert
  | replace (coffset : Nat) (cdata : List Byte)
  | contain (coffset : Nat) (cdata : List Byte)
  | below (coffset : Nat) (cdata : List Byte)
  | above (coffset : Nat) (cdata : List Byte)
  deriving DecidableEq

namespace SparseDataDevice

/-- The control flow of the range-for loop of `write`: the tests are those of
`writeLoop`, in the same order. -/
def writeBranch (data : List Byte) (offset end_ : Nat) : Chunks → Branch
  | [] => Branch.insert
  | (coffset, cdata) :: rest =>
    let cend := wadd coffset cdata.length
    if coffset ≥ end_ then Branch.insert
    else if cend ≤ offset then writeBranch data offset end_ rest
    else if coffset = offset ∧ cdata.length = data.length then Branch.replace coffset cdata
    else if offset ≤ coffset ∧ end_ ≥ wadd cend (wsub coffset offset) then
      Branch.contain coffset cdata
    else if coffset ≤ offset ∧ cend ≥ offset then Branch.below coffset cdata
    else if coffset ≤ end_ ∧ cend ≥ end_ then Branch.above coffset cdata
    else writeBranch data offset end_ rest

/-- The overlay loop of `read` without the early exit, as the specification
describes it: every chunk is visited, and each one that intersects the window
`[offset, offset + size)` is overlaid the way `readLoop` overlays it. -/
def readLoopWithoutBreak (offset size : Nat) : Chunks → List Byte → List Byte
  | [], buf => buf
  | (coffset, cdata) :: rest, buf =>
    if coffset ≥ wadd offset size then readLoopWithoutBreak offset size rest buf
    else if wadd coffset cdata.length ≤ offset then readLoopWithoutBreak offset size rest buf
    else
      let write_start := max coffset offset
      let write_end := min (wadd coffset cdata.length) (wadd offset size)
      let copy_size := wsub write_end write_start
      readLoopWithoutBreak offset size rest
        (copyInto buf (wsub write_start offset)
          ((cdata.drop (wsub write_start coffset)).take copy_size))

end SparseDataDevice

open SparseDataDevice

/-! ## Wrapping arithmetic and the ordered map -/


theorem wadd_eq {a b : Nat} (h : a + b < sizeMod) : wadd a b = a + b := by
  unfold wadd; exact Nat.mod_eq_of_lt h

theorem wsub_eq {a b : Nat} (hb : b ≤ a) (ha : a < sizeMod) : wsub a b = a - b := by
  unfold wsub sizeMod at *; omega

theorem wadd_lt (a b : Nat) : wadd a b < sizeMod := by
  unfold wadd sizeMod; omega

theorem mem_mapInsert_imp {k : Nat} {v : List Byte} {m : Chunks} {x : Nat × List Byte}
    (h : x ∈ mapInsert k v m) : x = (k, v) ∨ x ∈ m := by
  induction m with
  | nil => simp [mapInsert] at h; exact Or.inl h
  | cons y rest ih =>
    obtain ⟨c, d⟩ := y
    simp only [mapInsert] at h
    split_ifs at h with h1 h2
    · simp only [List.mem_cons] at h ⊢; tauto
    · simp only [List.mem_cons] at h ⊢; tauto
    · simp only [List.mem_cons] at h ⊢
      rcases h with h | h
      · tauto
      · have := ih h; tauto

theorem mem_mapInsert {k : Nat} {v : List Byte} {m : Chunks} (hs : SortedKeys m)
    (x : Nat × List Byte) : x ∈ mapInsert k v m ↔ x = (k, v) ∨ (x ∈ m ∧ x.1 ≠ k) := by
  induction m with
  | nil => simp [mapInsert]
  | cons y rest ih =>
    obtain ⟨c, d⟩ := y
    unfold SortedKeys at hs
    rw [List.pairwise_cons] at hs
    obtain ⟨hhead, htail⟩ := hs
    simp only [mapInsert]
    split_ifs with h1 h2
    · simp only [List.mem_cons]
      constructor
      · rintro (h | h | h)
        · exact Or.inl h
        · subst h; right; exact ⟨Or.inl rfl, by simp; omega⟩
        · right; exact ⟨Or.inr h, by have := hhead x h; simp at this; omega⟩
      · rintro (h | ⟨h | h, _⟩)
        · exact Or.inl h
        · exact Or.inr (Or.inl h)
        · exact Or.inr (Or.inr h)
    · subst h2
      simp only [List.mem_cons]
      constructor
      · rintro (h | h)
        · exact Or.inl h
        · right; exact ⟨Or.inr h, by have := hhead x h; simp at this; omega⟩
      · rintro (h | ⟨h | h, hne⟩)
        · exact Or.inl h
        · subst h; simp at hne
        · exact Or.inr h
    · simp only [List.mem_cons]
      rw [ih htail]
      constructor
      · rintro (h | h | ⟨h, hne⟩)
        · subst h; right; exact ⟨Or.inl rfl, by simp; omega⟩
        · exact Or.inl h
        · exact Or.inr ⟨Or.inr h, hne⟩
      · rintro (h | ⟨h | h, hne⟩)
        · exact Or.inr (Or.inl h)
        · exact Or.inl h
        · exact Or.inr (Or.inr ⟨h, hne⟩)

theorem sorted_mapInsert {k : Nat} {v : List Byte} {m : Chunks} (hs : SortedKeys m) :
    SortedKeys (mapInsert k v m) := by
  induction m with
  | nil => simp [mapInsert, SortedKeys]
  | cons y rest ih =>
    obtain ⟨c, d⟩ := y
    have hs0 := hs
    unfold SortedKeys at hs
    rw [List.pairwise_cons] at hs
    obtain ⟨hhead, htail⟩ := hs
    simp only [mapInsert]
    split_ifs with h1 h2
    · unfold SortedKeys
      rw [List.pairwise_cons]
      refine ⟨?_, hs0⟩
      intro z hz
      rcases List.mem_cons.1 hz with hz | hz
      · subst hz; exact h1
      · have := hhead z hz; simp at this ⊢; omega
    · subst h2
      unfold SortedKeys
      rw [List.pairwise_cons]
      exact ⟨hhead, htail⟩
    · unfold SortedKeys
      rw [List.pairwise_cons]
      refine ⟨?_, ih htail⟩
      intro z hz
      rcases mem_mapInsert_imp hz with hz | hz
      · subst hz; simp; omega
      · exact hhead z hz

theorem mem_mapErase {k : Nat} {m : Chunks} (x : Nat × List Byte) :
    x ∈ mapErase k m ↔ x ∈ m ∧ x.1 ≠ k := by
  simp [mapErase]

theorem sorted_mapErase {k : Nat} {m : Chunks} (hs : SortedKeys m) :
    SortedKeys (mapErase k m) :=
  List.Pairwise.sublist (List.filter_sublist m) hs

theorem sorted_eraseLoop {offset end_ : Nat} {m : Chunks} (hs : SortedKeys m) :
    SortedKeys (eraseLoop offset end_ m) := by
  refine List.Pairwise.sublist ?_ hs
  unfold eraseLoop
  have h := List.takeWhile_append_dropWhile (fun x : Nat × List Byte => decide (x.1 < offset)) m
  conv_rhs => rw [← h]
  exact List.Sublist.append (List.Sublist.refl _) (List.dropWhile_sublist _)

theorem mem_eraseLoop {offset end_ : Nat} {m : Chunks} (hs : SortedKeys m)
    (x : Nat × List Byte) :
    x ∈ eraseLoop offset end_ m ↔ x ∈ m ∧ ¬(offset ≤ x.1 ∧ x.1 < end_) := by
  induction m with
  | nil => simp [eraseLoop]
  | cons y rest ih =>
    unfold SortedKeys at hs
    rw [List.pairwise_cons] at hs
    obtain ⟨hhead, htail⟩ := hs
    have ih := ih htail
    unfold eraseLoop at ih ⊢
    by_cases h1 : y.1 < offset
    · simp only [List.takeWhile_cons, List.dropWhile_cons, h1, decide_True, if_true,
        List.cons_append, List.mem_cons]
      rw [ih]
      constructor
      · rintro (h | h)
        · subst h; exact ⟨Or.inl rfl, by omega⟩
        · exact ⟨Or.inr h.1, h.2⟩
      · rintro ⟨h | h, hn⟩
        · exact Or.inl h
        · exact Or.inr ⟨h, hn⟩
    · have hall : ∀ z ∈ rest, ¬ z.1 < offset := by
        intro z hz; have := hhead z hz; omega
      have htw : rest.takeWhile (fun x => decide (x.1 < offset)) = [] := by
        cases rest with
        | nil => rfl
        | cons z zs =>
          have := hall z (List.mem_cons_self _ _)
          simp [List.takeWhile_cons, this]
      have hdw : rest.dropWhile (fun x => decide (x.1 < offset)) = rest := by
        cases rest with
        | nil => rfl
        | cons z zs =>
          have := hall z (List.mem_cons_self _ _)
          simp [List.dropWhile_cons, this]
      rw [htw, hdw] at ih
      simp only [List.nil_append] at ih
      by_cases h2 : y.1 < end_
      · simp only [List.takeWhile_cons, List.dropWhile_cons, h1, h2, decide_False, decide_True,
          List.nil_append, if_true, if_false, Bool.false_eq_true]
        rw [ih]
        constructor
        · rintro ⟨h, hn⟩; exact ⟨List.mem_cons_of_mem _ h, hn⟩
        · rintro ⟨h, hn⟩
          rcases List.mem_cons.1 h with h | h
          · subst h; exact absurd ⟨by omega, h2⟩ hn
          · exact ⟨h, hn⟩
      · simp only [List.takeWhile_cons, List.dropWhile_cons, h1, h2, decide_False,
          List.nil_append, if_false, Bool.false_eq_true]
        constructor
        · intro h
          refine ⟨h, ?_⟩
          rcases List.mem_cons.1 h with h | h
          · subst h; omega
          · have := hhead x h; omega
        · rintro ⟨h, _⟩; exact h

/-! ## Vectors, stored bytes and the overlay loop of `read` -/

theorem length_copyInto {dst src : List Byte} {pos : Nat} (h : pos + src.length ≤ dst.length) :
    (copyInto dst pos src).length = dst.length := by
  simp only [copyInto, List.length_append, List.length_take, List.length_drop]
  omega

theorem getElem?_copyInto {dst src : List Byte} {pos : Nat} (h : pos + src.length ≤ dst.length)
    (i : Nat) :
    (copyInto dst pos src)[i]? = if pos ≤ i ∧ i < pos + src.length then src[i - pos]? else dst[i]? := by
  unfold copyInto
  have hl : (dst.take pos).length = pos := by rw [List.length_take]; omega
  by_cases h1 : i < pos
  · rw [List.append_assoc, List.getElem?_append_left (by omega), List.getElem?_take_of_lt h1]
    rw [if_neg (by omega)]
  · rw [List.append_assoc, List.getElem?_append_right (by omega), hl]
    by_cases h2 : i < pos + src.length
    · rw [List.getElem?_append_left (by omega), if_pos ⟨by omega, h2⟩]
    · rw [List.getElem?_append_right (by omega), List.getElem?_drop, if_neg (by omega)]
      congr 1; omega

theorem length_resize (v : List Byte) (n : Nat) : (resize v n).length = n := by
  simp only [resize, List.length_append, List.length_take, List.length_replicate]
  omega

theorem byteAt_eq_none {m : Chunks} {a : Nat} (h : ∀ x ∈ m, ¬ covers x a) : byteAt m a = none := by
  induction m with
  | nil => rfl
  | cons y rest ih =>
    simp only [byteAt]
    rw [ih (fun x hx => h x (List.mem_cons_of_mem _ hx))]
    simp only [if_neg (h y (List.mem_cons_self _ _))]

theorem byteAt_eq_none_iff {m : Chunks} {a : Nat} : byteAt m a = none ↔ ∀ x ∈ m, ¬ covers x a := by
  constructor
  · intro h
    induction m with
    | nil => intro x hx; cases hx
    | cons y rest ih =>
      simp only [byteAt] at h
      cases hr : byteAt rest a with
      | some b => rw [hr] at h; cases h
      | none =>
        rw [hr] at h
        simp only at h
        intro x hx
        rcases List.mem_cons.1 hx with hx | hx
        · subst hx
          intro hc
          rw [if_pos hc] at h
          have := List.getElem?_eq_none_iff.1 h
          unfold covers at hc
          omega
        · exact ih hr x hx
  · exact byteAt_eq_none

/-- The byte for `a` is that of the covering chunk with the greatest start offset. -/
theorem byteAt_eq_of_greatest {m : Chunks} {a : Nat} (hs : SortedKeys m) {x : Nat × List Byte}
    (hx : x ∈ m) (hc : covers x a) (hmax : ∀ y ∈ m, covers y a → y.1 ≤ x.1) :
    byteAt m a = x.2[a - x.1]? := by
  induction m with
  | nil => cases hx
  | cons y rest ih =>
    unfold SortedKeys at hs
    rw [List.pairwise_cons] at hs
    obtain ⟨hhead, htail⟩ := hs
    simp only [byteAt]
    rcases List.mem_cons.1 hx with hxy | hxr
    · subst hxy
      have hnone : byteAt rest a = none := by
        apply byteAt_eq_none
        intro z hz hcz
        have h1 := hmax z (List.mem_cons_of_mem _ hz) hcz
        have h2 := hhead z hz
        omega
      rw [hnone]
      simp only [if_pos hc]
    · have := ih htail hxr (fun z hz hcz => hmax z (List.mem_cons_of_mem _ hz) hcz)
      rw [this]
      have hlt : a - x.1 < x.2.length := by unfold covers at hc; omega
      rw [List.getElem?_eq_getElem hlt]

/-- The overlay loop of `read`: position `i` of the result holds the byte stored for
address `offset + i` when some chunk covers it, and the buffer's byte otherwise. -/
theorem readLoop_spec (offset size : Nat) (hsz : offset + size < sizeMod) :
    ∀ (m : Chunks) (buf : List Byte), SortedKeys m → NoWrap m → buf.length = size →
      (readLoop offset size m buf).length = size ∧
      ∀ i, i < size → (readLoop offset size m buf)[i]? = (byteAt m (offset + i)).or buf[i]? := by
  intro m
  induction m with
  | nil => intro buf _ _ hb; exact ⟨hb, fun i _ => by simp [readLoop, byteAt]⟩
  | cons y rest ih =>
    intro buf hs hw hb
    obtain ⟨c, d⟩ := y
    have hs0 := hs
    unfold SortedKeys at hs
    rw [List.pairwise_cons] at hs
    obtain ⟨hhead, htail⟩ := hs
    have hwr : NoWrap rest := fun x hx => hw x (List.mem_cons_of_mem _ hx)
    have hcd : c + d.length < sizeMod := hw (c, d) (List.mem_cons_self _ _)
    simp only [readLoop, wadd_eq hsz, wadd_eq hcd]
    split_ifs with h1 h2
    · refine ⟨hb, fun i hi => ?_⟩
      rw [byteAt_eq_none, Option.none_or]
      intro x hx hc
      unfold covers at hc
      rcases List.mem_cons.1 hx with hx | hx
      · subst hx; simp at hc; omega
      · have := hhead x hx; simp at this; omega
    · obtain ⟨hl, hg⟩ := ih buf htail hwr hb
      refine ⟨hl, fun i hi => ?_⟩
      rw [hg i hi]
      simp only [byteAt]
      have hnc : ¬ covers (c, d) (offset + i) := by unfold covers; simp; omega
      cases hr : byteAt rest (offset + i) with
      | some b => simp
      | none => simp [hnc]
    · obtain ⟨ws, hwsdef⟩ : ∃ ws, ws = max c offset := ⟨_, rfl⟩
      obtain ⟨we, hwedef⟩ : ∃ we, we = min (c + d.length) (offset + size) := ⟨_, rfl⟩
      rw [← hwsdef, ← hwedef]
      have hws1 : c ≤ ws ∧ offset ≤ ws ∧ (ws = c ∨ ws = offset) := by
        rw [hwsdef]; refine ⟨le_max_left _ _, le_max_right _ _, ?_⟩
        rcases le_total c offset with h | h
        · right; exact max_eq_right h
        · left; exact max_eq_left h
      have hwe1 : we ≤ c + d.length ∧ we ≤ offset + size ∧
          (we = c + d.length ∨ we = offset + size) := by
        rw [hwedef]; refine ⟨min_le_left _ _, min_le_right _ _, ?_⟩
        rcases le_total (c + d.length) (offset + size) with h | h
        · left; exact min_eq_left h
        · right; exact min_eq_right h
      clear hwsdef hwedef
      have hws : wsub ws offset = ws - offset := wsub_eq (by omega) (by omega)
      have hwc : wsub ws c = ws - c := wsub_eq (by omega) (by omega)
      have hcs : wsub we ws = we - ws := wsub_eq (by omega) (by omega)
      rw [hws, hwc, hcs]
      have hsrc : ((d.drop (ws - c)).take (we - ws)).length = we - ws := by
        rw [List.length_take, List.length_drop]; omega
      have hfit : (ws - offset) + ((d.drop (ws - c)).take (we - ws)).length ≤ buf.length := by
        rw [hsrc]; omega
      obtain ⟨hl, hg⟩ := ih _ htail hwr ((length_copyInto hfit).trans hb)
      refine ⟨hl, fun i hi => ?_⟩
      rw [hg i hi, getElem?_copyInto hfit, hsrc]
      simp only [byteAt]
      cases hr : byteAt rest (offset + i) with
      | some b => simp
      | none =>
        simp only [Option.none_or]
        by_cases hc : covers (c, d) (offset + i)
        · have hc0 := hc
          unfold covers at hc; simp only at hc
          rw [if_pos (by omega), if_pos hc0]
          have hidx : ws - c + (i - (ws - offset)) = offset + i - c := by omega
          rw [List.getElem?_take_of_lt (by omega), List.getElem?_drop, hidx]
          rw [List.getElem?_eq_getElem (by omega : offset + i - c < d.length), Option.or_some]
        · have hc0 := hc
          unfold covers at hc; simp only at hc
          have hcond : ¬(ws - offset ≤ i ∧ i < ws - offset + (we - ws)) := by omega
          rw [if_neg hcond, if_neg hc0, Option.none_or]

/-! ## The chunks an in-bounds `write` can store -/

theorem wsub_wadd_below {c l e : Nat} (hc : c ≤ e) (hcl : c + l < sizeMod) (he : e < sizeMod) :
    wsub (wadd l e) (wadd c l) = e - c := by
  unfold wsub wadd sizeMod at *; omega

theorem copyInto_resize_below (d data : List Byte) (k : Nat) (hk : k ≤ d.length) :
    copyInto (resize d (k + data.length)) ((resize d (k + data.length)).length - data.length) data
      = d.take k ++ data := by
  rw [length_resize]
  have h1 : k + data.length - data.length = k := by omega
  rw [h1]
  unfold copyInto
  have h2 : (resize d (k + data.length)).take k = d.take k := by
    unfold resize
    rw [List.take_append_of_le_length (by rw [List.length_take]; omega), List.take_take]
    congr 1; omega
  have h3 : (resize d (k + data.length)).drop (k + data.length) = [] := by
    apply List.drop_of_length_le; rw [length_resize]
  rw [h2, h3, List.append_nil]

theorem copyInto_resize_above (data src : List Byte) :
    copyInto (resize data (data.length + src.length))
      ((resize data (data.length + src.length)).length - src.length) src = data ++ src := by
  rw [length_resize]
  have h1 : data.length + src.length - src.length = data.length := by omega
  rw [h1]
  unfold copyInto
  have h2 : (resize data (data.length + src.length)).take data.length = data := by
    unfold resize
    rw [List.take_append_of_le_length (by rw [List.length_take]; omega), List.take_take]
    simp
  have h3 : (resize data (data.length + src.length)).drop (data.length + src.length) = [] := by
    apply List.drop_of_length_le; rw [length_resize]
  rw [h2, h3, List.append_nil]

/-- Where the chunks of the map after an in-bounds `write` come from: a chunk is an
old one, the written bytes, an old chunk cut at `offset` and continued by the
written bytes, or the written bytes continued by the tail of an old chunk. -/
theorem writeLoop_mem {cap : Nat} {all : Chunks} {data : List Byte} {offset : Nat}
    (hcap : cap < sizeMod) (hin : InCap cap all) (hb : offset + data.length ≤ cap) :
    ∀ (rest : Chunks), (∀ y ∈ rest, y ∈ all) →
      ∀ x ∈ writeLoop all data offset (offset + data.length) rest,
        x ∈ all ∨ x = (offset, data) ∨
        (∃ c d, (c, d) ∈ all ∧ c ≤ offset ∧ offset < c + d.length ∧
          x = (c, d.take (offset - c) ++ data)) ∨
        (∃ c d, (c, d) ∈ all ∧ offset < c ∧ c < offset + data.length ∧
          offset + data.length ≤ c + d.length ∧
          x = (offset, data ++ d.drop (offset + data.length - c))) := by
  intro rest
  induction rest with
  | nil =>
    intro _ x hx
    simp only [writeLoop] at hx
    rcases mem_mapInsert_imp hx with h | h
    · exact Or.inr (Or.inl h)
    · exact Or.inl h
  | cons y rest ih =>
    intro hsub x hx
    obtain ⟨c, d⟩ := y
    have hmem : (c, d) ∈ all := hsub _ (List.mem_cons_self _ _)
    have hcd : c + d.length ≤ cap := hin _ hmem
    have hrest : ∀ y ∈ rest, y ∈ all := fun y hy => hsub y (List.mem_cons_of_mem _ hy)
    simp only [writeLoop, wadd_eq (show c + d.length < sizeMod by omega)] at hx
    split_ifs at hx with h1 h2 h3 h4 h5 h6
    · rcases mem_mapInsert_imp hx with h | h
      · exact Or.inr (Or.inl h)
      · exact Or.inl h
    · exact ih hrest x hx
    · rcases mem_mapInsert_imp hx with h | h
      · rw [h3.1] at h; exact Or.inr (Or.inl h)
      · exact Or.inl h
    · rcases mem_mapInsert_imp hx with h | h
      · exact Or.inr (Or.inl h)
      · exact Or.inl ((mem_mapErase x).1 h).1
    · rcases mem_mapInsert_imp hx with h | h
      · right; right; left
        refine ⟨c, d, hmem, h5.1, by omega, ?_⟩
        rw [h]
        have hn : wsub (wadd d.length (offset + data.length)) (c + d.length)
            = (offset - c) + data.length := by
          have := @wsub_wadd_below c d.length (offset + data.length)
            (by omega) (by omega) (by omega)
          rw [wadd_eq (show c + d.length < sizeMod by omega)] at this
          rw [this]; omega
        rw [hn, copyInto_resize_below d data (offset - c) (by omega)]
      · exact Or.inl h
    · rcases mem_mapInsert_imp hx with h | h
      · right; right; right
        refine ⟨c, d, hmem, by omega, by omega, h6.2, ?_⟩
        rw [h]
        have ha : wsub (c + d.length) (offset + data.length)
            = c + d.length - (offset + data.length) := wsub_eq h6.2 (by omega)
        have hsrc : (d.drop (wsub d.length (c + d.length - (offset + data.length)))).length
            = c + d.length - (offset + data.length) := by
          rw [wsub_eq (by omega) (by omega), List.length_drop]; omega
        rw [ha, wadd_eq (by omega)]
        have := copyInto_resize_above data
          (d.drop (wsub d.length (c + d.length - (offset + data.length))))
        rw [hsrc] at this
        rw [this, wsub_eq (by omega) (by omega)]
        congr 3; omega
      · exact Or.inl h
    · exact ih hrest x hx

/-! ## Bounds checks, key order and the capacity invariant -/

theorem sorted_writeLoop {all : Chunks} (data : List Byte) (offset end_ : Nat)
    (hs : SortedKeys all) : ∀ rest : Chunks, SortedKeys (writeLoop all data offset end_ rest) := by
  intro rest
  induction rest with
  | nil => exact sorted_mapInsert hs
  | cons y rest ih =>
    obtain ⟨c, d⟩ := y
    simp only [writeLoop]
    split_ifs
    · exact sorted_mapInsert hs
    · exact ih
    · exact sorted_mapInsert hs
    · exact sorted_mapInsert (sorted_mapErase hs)
    · exact sorted_mapInsert hs
    · exact sorted_mapInsert hs
    · exact ih

theorem mem_eraseLoop_imp {offset end_ : Nat} {m : Chunks} {x : Nat × List Byte}
    (h : x ∈ eraseLoop offset end_ m) : x ∈ m := by
  unfold eraseLoop at h
  rcases List.mem_append.1 h with h | h
  · exact (List.takeWhile_sublist _).subset h
  · exact (List.dropWhile_sublist _).subset ((List.dropWhile_sublist _).subset h)

theorem write_inBounds (dev : SparseDataDevice) (data : List Byte) (offset : Nat)
    (hcap : dev.size_ < sizeMod) (hb : offset + data.length ≤ dev.size_) :
    dev.write data offset = (Error.none,
      { dev with chunks_ := writeLoop dev.chunks_ data offset (offset + data.length) dev.chunks_ }) := by
  unfold write
  rw [wadd_eq (by omega), if_neg (by omega)]

theorem write_outOfBounds (dev : SparseDataDevice) (data : List Byte) (offset : Nat)
    (hnw : offset + data.length < sizeMod) (hb : dev.size_ < offset + data.length) :
    dev.write data offset = (Error.out_of_bounds, dev) := by
  unfold write
  rw [wadd_eq hnw, if_pos hb]

theorem erase_inBounds (dev : SparseDataDevice) (offset size : Nat)
    (hcap : dev.size_ < sizeMod) (hb : offset + size ≤ dev.size_) :
    dev.erase offset size = (Error.none,
      { dev with chunks_ := eraseLoop offset (offset + size) dev.chunks_ }) := by
  unfold erase
  rw [wadd_eq (by omega), if_neg (by omega)]

theorem erase_outOfBounds (dev : SparseDataDevice) (offset size : Nat)
    (hnw : offset + size < sizeMod) (hb : dev.size_ < offset + size) :
    dev.erase offset size = (Error.out_of_bounds, dev) := by
  unfold erase
  rw [wadd_eq hnw, if_pos hb]

theorem read_inBounds (dev : SparseDataDevice) (buf : List Byte) (offset size : Nat)
    (hcap : dev.size_ < sizeMod) (hb : offset + size ≤ dev.size_) :
    dev.read buf offset size
      = (Error.none, readLoop offset size dev.chunks_ (List.replicate size 0xff)) := by
  unfold SparseDataDevice.read
  rw [wadd_eq (by omega), if_neg (by omega)]

theorem apply_size (dev : SparseDataDevice) (op : Op) : (dev.apply op).2.size_ = dev.size_ := by
  cases op with
  | write data offset => simp only [apply, write]; split_ifs <;> rfl
  | erase offset size => simp only [apply, erase]; split_ifs <;> rfl

theorem run_size (ops : List Op) : ∀ dev : SparseDataDevice, (dev.run ops).size_ = dev.size_ := by
  induction ops with
  | nil => intro dev; rfl
  | cons op ops ih => intro dev; simp only [run]; rw [ih, apply_size]

theorem apply_sorted (dev : SparseDataDevice) (op : Op) (hs : SortedKeys dev.chunks_) :
    SortedKeys (dev.apply op).2.chunks_ := by
  cases op with
  | write data offset =>
    simp only [apply, write]; split_ifs
    · exact hs
    · exact sorted_writeLoop data offset _ hs _
  | erase offset size =>
    simp only [apply, erase]; split_ifs
    · exact hs
    · exact sorted_eraseLoop hs

theorem run_sorted (ops : List Op) :
    ∀ dev : SparseDataDevice, SortedKeys dev.chunks_ → SortedKeys (dev.run ops).chunks_ := by
  induction ops with
  | nil => intro dev h; exact h
  | cons op ops ih => intro dev h; simp only [run]; exact ih _ (apply_sorted dev op h)

theorem reachable_sorted {cap : Nat} {dev : SparseDataDevice} (h : Reachable cap dev) :
    SortedKeys dev.chunks_ := by
  obtain ⟨ops, _, rfl⟩ := h
  exact run_sorted ops _ (by simp [mk_fresh, SortedKeys])

theorem apply_inCap (dev : SparseDataDevice) (op : Op) (hcap : dev.size_ < sizeMod)
    (hnw : op.NoWrapArgs) (hin : InCap dev.size_ dev.chunks_) :
    InCap dev.size_ (dev.apply op).2.chunks_ := by
  cases op with
  | write data offset =>
    unfold Op.NoWrapArgs at hnw
    simp only [Op.offset, Op.length] at hnw
    simp only [apply]
    by_cases hb : offset + data.length ≤ dev.size_
    · rw [write_inBounds dev data offset hcap hb]
      intro x hx
      rcases writeLoop_mem hcap hin hb dev.chunks_ (fun y hy => hy) x hx with
        h | h | ⟨c, d, hm, h1, h2, h⟩ | ⟨c, d, hm, h1, h2, h3, h⟩
      · exact hin x h
      · rw [h]; exact hb
      · rw [h]
        simp only [List.length_append, List.length_take]
        omega
      · rw [h]
        have := hin _ hm
        simp only [List.length_append, List.length_drop] at this ⊢
        omega
    · rw [write_outOfBounds dev data offset hnw (by omega)]
      exact hin
  | erase offset size =>
    simp only [apply, erase]
    split_ifs
    · exact hin
    · intro x hx
      exact hin x (mem_eraseLoop_imp hx)

theorem run_inCap (ops : List Op) : ∀ dev : SparseDataDevice, dev.size_ < sizeMod →
    (∀ op ∈ ops, op.NoWrapArgs) → InCap dev.size_ dev.chunks_ →
    InCap dev.size_ (dev.run ops).chunks_ := by
  induction ops with
  | nil => intro dev _ _ h; exact h
  | cons op ops ih =>
    intro dev hcap hnw hin
    simp only [run]
    have h1 := apply_inCap dev op hcap (hnw op (List.mem_cons_self _ _)) hin
    have h2 := ih (dev.apply op).2 (by rw [apply_size]; exact hcap)
      (fun o ho => hnw o (List.mem_cons_of_mem _ ho)) (by rw [apply_size]; exact h1)
    rw [apply_size] at h2
    exact h2

theorem inBounds_noWrapArgs {cap : Nat} {op : Op} (hcap : cap < sizeMod) (h : op.InBounds cap) :
    op.NoWrapArgs := by
  unfold Op.InBounds at h; unfold Op.NoWrapArgs; omega

theorem inCap_noWrap {cap : Nat} {m : Chunks} (hcap : cap < sizeMod) (h : InCap cap m) :
    NoWrap m := fun x hx => by have := h x hx; omega

/-- C2. Bounds rejection is atomic on the sparse device: when `offset + length`
(not wrapping around `size_t`) exceeds the capacity, `read`, `write` of `length`
bytes and `erase` each return `out_of_bounds`; `write` and `erase` return the
device unchanged (chunk map included) and `read` returns the caller's buffer unchanged. -/
theorem sparse_bounds_rejection_atomic (dev : SparseDataDevice) (buf data : List Byte)
    (offset length : Nat) (hlen : data.length = length) (hnw : offset + length < sizeMod)
    (hob : dev.size_ < offset + length) :
    dev.read buf offset length = (Error.out_of_bounds, buf) ∧
    dev.write data offset = (Error.out_of_bounds, dev) ∧
    (dev.write data offset).2.chunks_ = dev.chunks_ ∧
    dev.erase offset length = (Error.out_of_bounds, dev) ∧
    (dev.erase offset length).2.chunks_ = dev.chunks_ := by
  subst hlen
  have hw := write_outOfBounds dev data offset hnw hob
  have he := erase_outOfBounds dev offset data.length hnw hob
  refine ⟨?_, hw, by rw [hw], he, by rw [he]⟩
  unfold SparseDataDevice.read
  rw [wadd_eq hnw, if_pos hob]

/-- C2 on a device of capacity 4 holding one chunk: the calls at offset 3 with length 2. -/
theorem sparse_bounds_rejection_atomic_witness :
    (SparseDataDevice.mk 4 [(0, [1, 2])]).read [7] 3 2 = (Error.out_of_bounds, [7]) ∧
    (SparseDataDevice.mk 4 [(0, [1, 2])]).write [5, 6] 3
      = (Error.out_of_bounds, SparseDataDevice.mk 4 [(0, [1, 2])]) ∧
    ((SparseDataDevice.mk 4 [(0, [1, 2])]).write [5, 6] 3).2.chunks_ = [(0, [1, 2])] ∧
    (SparseDataDevice.mk 4 [(0, [1, 2])]).erase 3 2
      = (Error.out_of_bounds, SparseDataDevice.mk 4 [(0, [1, 2])]) ∧
    ((SparseDataDevice.mk 4 [(0, [1, 2])]).erase 3 2).2.chunks_ = [(0, [1, 2])] :=
  sparse_bounds_rejection_atomic (SparseDataDevice.mk 4 [(0, [1, 2])]) [7] [5, 6] 3 2 rfl
    (by decide) (by decide)

/-- C9. Capacity invariant: after any sequence of write and erase calls whose
`offset + length` does not wrap around `size_t`, applied to a fresh
`SparseDataDevice(cap)`, every stored chunk `(s, b)` has `s + len(b) ≤ cap`, and
`size()` returns `cap`. -/
theorem sparse_capacity_invariant (cap : Nat) (ops : List Op) (hcap : cap < sizeMod)
    (hnw : ∀ op ∈ ops, op.NoWrapArgs) :
    (∀ x ∈ ((mk_fresh cap).run ops).chunks_, x.1 + x.2.length ≤ cap) ∧
    ((mk_fresh cap).run ops).size = cap := by
  refine ⟨?_, ?_⟩
  · exact run_inCap ops (mk_fresh cap) hcap hnw (by intro x hx; cases hx)
  · unfold size; rw [run_size]; rfl

/-- C9 on a run of four calls on a fresh device of capacity 8, the third one rejected. -/
theorem sparse_capacity_invariant_witness :
    (∀ x ∈ ((mk_fresh 8).run [Op.write [1, 2, 3] 2, Op.write [4, 5, 6] 0, Op.erase 7 5,
        Op.write [9] 7]).chunks_, x.1 + x.2.length ≤ 8) ∧
    ((mk_fresh 8).run [Op.write [1, 2, 3] 2, Op.write [4, 5, 6] 0, Op.erase 7 5,
        Op.write [9] 7]).size = 8 :=
  sparse_capacity_invariant 8 [Op.write [1, 2, 3] 2, Op.write [4, 5, 6] 0, Op.erase 7 5,
    Op.write [9] 7] (by decide) (by decide)

/-! ## Chunk lengths and default fill -/

/-- Induction over a run: a property kept by every admissible call holds at the end. -/
theorem run_induction (P : SparseDataDevice → Prop) (ok : Op → Prop)
    (hstep : ∀ dev op, P dev → ok op → P (dev.apply op).2) (ops : List Op) :
    ∀ dev : SparseDataDevice, P dev → (∀ op ∈ ops, ok op) → P (dev.run ops) := by
  induction ops with
  | nil => intro dev h _; exact h
  | cons op ops ih =>
    intro dev h hok
    simp only [run]
    exact ih _ (hstep dev op h (hok op (List.mem_cons_self _ _)))
      (fun o ho => hok o (List.mem_cons_of_mem _ ho))

theorem apply_nonEmpty (cap : Nat) (hcap : cap < sizeMod) (dev : SparseDataDevice) (op : Op)
    (hinv : dev.size_ = cap ∧ InCap cap dev.chunks_ ∧ ∀ x ∈ dev.chunks_, 1 ≤ x.2.length)
    (hop : op.InBounds cap ∧ ∀ data offset, op = Op.write data offset → 1 ≤ data.length) :
    (dev.apply op).2.size_ = cap ∧ InCap cap (dev.apply op).2.chunks_ ∧
      ∀ x ∈ (dev.apply op).2.chunks_, 1 ≤ x.2.length := by
  obtain ⟨hsz, hin, hne⟩ := hinv
  obtain ⟨hb, hd⟩ := hop
  refine ⟨by rw [apply_size]; exact hsz, ?_, ?_⟩
  · have := apply_inCap dev op (by omega) (inBounds_noWrapArgs hcap hb) (by rw [hsz]; exact hin)
    rw [hsz] at this; exact this
  · cases op with
    | write data offset =>
      have hd1 := hd data offset rfl
      unfold Op.InBounds at hb
      simp only [Op.offset, Op.length] at hb
      simp only [apply]
      rw [write_inBounds dev data offset (by omega) (by omega)]
      intro x hx
      rcases writeLoop_mem hcap hin hb dev.chunks_ (fun y hy => hy) x hx with
        h | h | ⟨c, d, _, _, _, h⟩ | ⟨c, d, _, _, _, _, h⟩
      · exact hne x h
      · rw [h]; exact hd1
      · rw [h]; simp only [List.length_append]; omega
      · rw [h]; simp only [List.length_append]; omega
    | erase offset size =>
      simp only [apply, erase]
      split_ifs
      · exact hne
      · intro x hx; exact hne x (mem_eraseLoop_imp hx)

/-- C10 (as amended). After any sequence of in-bounds erase calls and in-bounds
writes of at least one byte, applied to a fresh device, every stored chunk has
length at least 1. -/
theorem sparse_no_empty_chunk (cap : Nat) (ops : List Op) (hcap : cap < sizeMod)
    (hin : ∀ op ∈ ops, op.InBounds cap)
    (hne : ∀ data offset, Op.write data offset ∈ ops → 1 ≤ data.length) :
    ∀ x ∈ ((mk_fresh cap).run ops).chunks_, 1 ≤ x.2.length := by
  have := run_induction
    (fun dev => dev.size_ = cap ∧ InCap cap dev.chunks_ ∧ ∀ x ∈ dev.chunks_, 1 ≤ x.2.length)
    (fun op => op ∈ ops ∧ op.InBounds cap)
    (fun dev op h hop => apply_nonEmpty cap hcap dev op h
      ⟨hop.2, fun data offset he => hne data offset (he ▸ hop.1)⟩)
    ops (mk_fresh cap)
    (by refine ⟨rfl, ?_, ?_⟩ <;> (intro x hx; cases hx))
    (fun op hop => ⟨hop, hin op hop⟩)
  exact this.2.2

/-- C10 (as amended) on a run of four in-bounds calls on a fresh device of capacity 8. -/
theorem sparse_no_empty_chunk_witness :
    (∀ op ∈ [Op.write [1, 2, 3] 2, Op.write [4, 5, 6] 0, Op.erase 2 1, Op.write [9] 7],
      op.InBounds 8) ∧
    ∀ x ∈ ((mk_fresh 8).run [Op.write [1, 2, 3] 2, Op.write [4, 5, 6] 0, Op.erase 2 1,
      Op.write [9] 7]).chunks_, 1 ≤ x.2.length :=
  ⟨by decide,
    sparse_no_empty_chunk 8 [Op.write [1, 2, 3] 2, Op.write [4, 5, 6] 0, Op.erase 2 1,
      Op.write [9] 7] (by decide) (by decide)
      (by
        intro data offset h
        simp only [List.mem_cons, Op.write.injEq, List.mem_singleton, reduceCtorEq, or_false,
          false_or, List.not_mem_nil] at h
        rcases h with h | h | h <;> (rw [h.1]; decide))⟩

/-- C10 (counterexample). On a fresh device of capacity 100 the in-bounds call
`write({}, 0)` returns `none` and stores the chunk `(0, {})`, of length 0. -/
theorem sparse_no_empty_chunk_counterexample :
    (Op.write [] 0).InBounds 100 ∧
    ((mk_fresh 100).write [] 0).1 = Error.none ∧
    ((mk_fresh 100).run [Op.write [] 0]).chunks_ = [(0, [])] ∧
    ((0, []) : Nat × List Byte).2.length = 0 := by
  decide

theorem apply_written (cap : Nat) (hcap : cap < sizeMod) (W : Nat → Prop)
    (dev : SparseDataDevice) (op : Op)
    (hinv : dev.size_ = cap ∧ InCap cap dev.chunks_ ∧ ∀ x ∈ dev.chunks_, ∀ a, covers x a → W a)
    (hop : op.InBounds cap ∧
      ∀ data offset, op = Op.write data offset → ∀ a, offset ≤ a → a < offset + data.length → W a) :
    (dev.apply op).2.size_ = cap ∧ InCap cap (dev.apply op).2.chunks_ ∧
      ∀ x ∈ (dev.apply op).2.chunks_, ∀ a, covers x a → W a := by
  obtain ⟨hsz, hin, hw⟩ := hinv
  obtain ⟨hb, hd⟩ := hop
  refine ⟨by rw [apply_size]; exact hsz, ?_, ?_⟩
  · have := apply_inCap dev op (by omega) (inBounds_noWrapArgs hcap hb) (by rw [hsz]; exact hin)
    rw [hsz] at this; exact this
  · cases op with
    | write data offset =>
      have hd1 := hd data offset rfl
      unfold Op.InBounds at hb
      simp only [Op.offset, Op.length] at hb
      simp only [apply]
      rw [write_inBounds dev data offset (by omega) (by omega)]
      intro x hx a hc
      rcases writeLoop_mem hcap hin hb dev.chunks_ (fun y hy => hy) x hx with
        h | h | ⟨c, d, hm, h1, h2, h⟩ | ⟨c, d, hm, h1, h2, h3, h⟩
      · exact hw x h a hc
      · rw [h] at hc; exact hd1 a hc.1 hc.2
      · rw [h] at hc
        unfold covers at hc
        simp only [List.length_append, List.length_take] at hc
        by_cases ha : a < offset
        · exact hw (c, d) hm a ⟨hc.1, by simp only; omega⟩
        · exact hd1 a (by omega) (by omega)
      · rw [h] at hc
        unfold covers at hc
        simp only [List.length_append, List.length_drop] at hc
        by_cases ha : a < offset + data.length
        · exact hd1 a hc.1 ha
        · exact hw (c, d) hm a ⟨by simp only; omega, by simp only; omega⟩
    | erase offset size =>
      simp only [apply, erase]
      split_ifs
      · exact hw
      · intro x hx; exact hw x (mem_eraseLoop_imp hx)

theorem read_fill_of_not_covered (dev : SparseDataDevice) (buf : List Byte) (offset size : Nat)
    (hs : SortedKeys dev.chunks_) (hcap : dev.size_ < sizeMod) (hw : NoWrap dev.chunks_)
    (hb : offset + size ≤ dev.size_) (i : Nat) (hi : i < size)
    (hnc : ∀ x ∈ dev.chunks_, ¬ covers x (offset + i)) :
    (dev.read buf offset size).2[i]? = some 0xff := by
  rw [read_inBounds dev buf offset size hcap hb]
  obtain ⟨_, hg⟩ := readLoop_spec offset size (by omega) dev.chunks_ (List.replicate size 0xff)
    hs hw (List.length_replicate _ _)
  simp only
  rw [hg i hi, byteAt_eq_none hnc, Option.none_or, List.getElem?_replicate, if_pos hi]

/-- C4. Default fill: after any sequence of in-bounds write and erase calls on a
fresh device, an address `a` (in particular any `a < cap`) lying in the range of none of the writes is
covered by no stored chunk, and every in-bounds read whose window contains `a`
returns `none` with `0xFF` at that address; every in-bounds read of a fresh
device returns `none` and only `0xFF` bytes. -/
theorem sparse_default_fill (cap : Nat) (ops : List Op) (hcap : cap < sizeMod)
    (hin : ∀ op ∈ ops, op.InBounds cap) (a : Nat)
    (hnot : ∀ data offset, Op.write data offset ∈ ops → ¬(offset ≤ a ∧ a < offset + data.length)) :
    (∀ x ∈ ((mk_fresh cap).run ops).chunks_, ¬ covers x a) ∧
    (∀ buf offset size, offset + size ≤ cap → offset ≤ a → a < offset + size →
      (((mk_fresh cap).run ops).read buf offset size).1 = Error.none ∧
      (((mk_fresh cap).run ops).read buf offset size).2[a - offset]? = some 0xff) ∧
    (∀ buf offset size, offset + size ≤ cap →
      (mk_fresh cap).read buf offset size = (Error.none, List.replicate size 0xff)) := by
  have hinv := run_induction
    (fun dev => dev.size_ = cap ∧ InCap cap dev.chunks_ ∧
      ∀ x ∈ dev.chunks_, ∀ b, covers x b →
        ∃ data offset, Op.write data offset ∈ ops ∧ offset ≤ b ∧ b < offset + data.length)
    (fun op => op ∈ ops ∧ op.InBounds cap)
    (fun dev op h hop => apply_written cap hcap _ dev op h
      ⟨hop.2, fun data offset he b h1 h2 => ⟨data, offset, he ▸ hop.1, h1, h2⟩⟩)
    ops (mk_fresh cap)
    (by refine ⟨rfl, ?_, ?_⟩ <;> (intro x hx; cases hx))
    (fun op hop => ⟨hop, hin op hop⟩)
  obtain ⟨hsz, hic, hcov⟩ := hinv
  have hnc : ∀ x ∈ ((mk_fresh cap).run ops).chunks_, ¬ covers x a := by
    intro x hx hc
    obtain ⟨data, offset, hm, h1, h2⟩ := hcov x hx a hc
    exact hnot data offset hm ⟨h1, h2⟩
  have hsorted : SortedKeys ((mk_fresh cap).run ops).chunks_ :=
    run_sorted ops _ (by simp [mk_fresh, SortedKeys])
  refine ⟨hnc, ?_, ?_⟩
  · intro buf offset size hb h1 h2
    refine ⟨?_, ?_⟩
    · rw [read_inBounds _ buf offset size (by omega) (by omega)]
    · apply read_fill_of_not_covered _ buf offset size hsorted (by omega)
        (inCap_noWrap hcap hic) (by omega) (a - offset) (by omega)
      have : offset + (a - offset) = a := by omega
      rw [this]; exact hnc
  · intro buf offset size hb
    rw [read_inBounds _ buf offset size (by simp only [mk_fresh]; omega)
      (by simp only [mk_fresh]; omega)]
    simp [mk_fresh, readLoop]

/-- C4 on a run of three in-bounds calls on a fresh device of capacity 8, at address 6. -/
theorem sparse_default_fill_witness :
    (∀ x ∈ ((mk_fresh 8).run [Op.write [1, 2, 3] 2, Op.erase 2 1, Op.write [4, 5] 1]).chunks_,
      ¬ covers x 6) ∧
    (∀ buf offset size, offset + size ≤ 8 → offset ≤ 6 → 6 < offset + size →
      (((mk_fresh 8).run [Op.write [1, 2, 3] 2, Op.erase 2 1, Op.write [4, 5] 1]).read
        buf offset size).1 = Error.none ∧
      (((mk_fresh 8).run [Op.write [1, 2, 3] 2, Op.erase 2 1, Op.write [4, 5] 1]).read
        buf offset size).2[6 - offset]? = some 0xff) ∧
    (∀ buf offset size, offset + size ≤ 8 →
      (mk_fresh 8).read buf offset size = (Error.none, List.replicate size 0xff)) :=
  sparse_default_fill 8 [Op.write [1, 2, 3] 2, Op.erase 2 1, Op.write [4, 5] 1] (by decide)
    (by decide) 6
    (by
      intro data offset h
      simp only [List.mem_cons, Op.write.injEq, List.mem_singleton, reduceCtorEq, or_false,
        false_or, List.not_mem_nil] at h
      rcases h with h | h <;> (rw [h.1, h.2]; decide))

/-! ## Erase followed by read, and read reconstruction -/

theorem reachable_size {cap : Nat} {dev : SparseDataDevice} (h : Reachable cap dev) :
    dev.size_ = cap := by
  obtain ⟨ops, _, rfl⟩ := h
  rw [run_size]; rfl

theorem readLoop_all_skipped (offset size : Nat) (hsz : offset + size < sizeMod) :
    ∀ (m : Chunks) (buf : List Byte),
      (∀ x ∈ m, x.1 < offset + size → x.1 + x.2.length ≤ offset) →
      readLoop offset size m buf = buf := by
  intro m
  induction m with
  | nil => intro buf _; rfl
  | cons y rest ih =>
    intro buf h
    obtain ⟨c, d⟩ := y
    simp only [readLoop, wadd_eq hsz]
    split_ifs with h1 h2
    · rfl
    · exact ih buf (fun x hx => h x (List.mem_cons_of_mem _ hx))
    · exfalso
      have h3 := h (c, d) (List.mem_cons_self _ _) (by simp only; omega)
      simp only at h3
      rw [wadd_eq (by omega)] at h2
      omega

/-- C3 (as amended). In a state reachable from a fresh device in which no stored
chunk starting before `offset` extends beyond `offset`, an in-bounds
`erase(offset, length)` returns `none` and an immediately following
`read(offset, length)` returns `none` with exactly `length` bytes, all `0xFF`. -/
theorem sparse_erase_restores_fill (cap : Nat) (dev : SparseDataDevice) (buf : List Byte)
    (offset length : Nat) (hcap : cap < sizeMod) (hr : Reachable cap dev)
    (hb : offset + length ≤ cap)
    (hclean : ∀ x ∈ dev.chunks_, x.1 < offset → x.1 + x.2.length ≤ offset) :
    (dev.erase offset length).1 = Error.none ∧
    (dev.erase offset length).2.read buf offset length
      = (Error.none, List.replicate length 0xff) := by
  have hsz := reachable_size hr
  have hs := reachable_sorted hr
  rw [erase_inBounds dev offset length (by omega) (by omega)]
  refine ⟨rfl, ?_⟩
  rw [read_inBounds _ buf offset length (by simp only; omega) (by simp only; omega)]
  simp only
  rw [readLoop_all_skipped offset length (by omega)]
  intro x hx hlt
  have hm := (mem_eraseLoop hs x).1 hx
  exact hclean x hm.1 (by omega)

/-- C3 (as amended) on the device reached by two writes: `erase(3, 4)` removes the chunk at 4. -/
theorem sparse_erase_restores_fill_witness :
    (((mk_fresh 8).run [Op.write [1, 2, 3] 0, Op.write [4, 5] 4]).erase 3 4).1 = Error.none ∧
    (((mk_fresh 8).run [Op.write [1, 2, 3] 0, Op.write [4, 5] 4]).erase 3 4).2.read [] 3 4
      = (Error.none, List.replicate 4 0xff) :=
  sparse_erase_restores_fill 8 ((mk_fresh 8).run [Op.write [1, 2, 3] 0, Op.write [4, 5] 4]) []
    3 4 (by decide) ⟨[Op.write [1, 2, 3] 0, Op.write [4, 5] 4], by decide, rfl⟩ (by decide)
    (by decide)

/-- C3 (counterexample). On the device of capacity 100 reached by
`write({1,2,3}, 0)`, the in-bounds `erase(1, 2)` returns `none` and leaves the
chunk `(0, {1,2,3})` in place, so the following `read(1, 2)` returns `{2, 3}`,
not `{0xFF, 0xFF}`. -/
theorem sparse_erase_restores_fill_counterexample :
    (∀ op ∈ [Op.write [1, 2, 3] 0], op.WF) ∧
    (((mk_fresh 100).run [Op.write [1, 2, 3] 0]).erase 1 2).1 = Error.none ∧
    (((mk_fresh 100).run [Op.write [1, 2, 3] 0]).erase 1 2).2.chunks_ = [(0, [1, 2, 3])] ∧
    (((mk_fresh 100).run [Op.write [1, 2, 3] 0]).erase 1 2).2.read [] 1 2
      = (Error.none, [2, 3]) := by
  decide

/-- C5 (as amended). Read reconstruction: for every chunk map none of whose chunk
ends `start + length` wraps around `size_t`, and every in-bounds `offset`,
`length`, `read` returns `none` and a buffer of exactly `length` bytes whose
`i`-th byte is `0xFF` when no chunk covers address `offset + i`, and otherwise
is the byte stored for that address in the covering chunk with the greatest
start offset. -/
theorem sparse_read_reconstruction (dev : SparseDataDevice) (buf : List Byte)
    (offset length : Nat) (hs : SortedKeys dev.chunks_) (hcap : dev.size_ < sizeMod)
    (hw : NoWrap dev.chunks_) (hb : offset + length ≤ dev.size_) :
    (dev.read buf offset length).1 = Error.none ∧
    (dev.read buf offset length).2.length = length ∧
    ∀ i, i < length →
      ((∀ x ∈ dev.chunks_, ¬ covers x (offset + i)) →
        (dev.read buf offset length).2[i]? = some 0xff) ∧
      (∀ x ∈ dev.chunks_, covers x (offset + i) →
        (∀ y ∈ dev.chunks_, covers y (offset + i) → y.1 ≤ x.1) →
        (dev.read buf offset length).2[i]? = x.2[offset + i - x.1]?) := by
  rw [read_inBounds dev buf offset length hcap hb]
  obtain ⟨hl, hg⟩ := readLoop_spec offset length (by omega) dev.chunks_
    (List.replicate length 0xff) hs hw (List.length_replicate _ _)
  refine ⟨rfl, hl, fun i hi => ⟨?_, ?_⟩⟩
  · intro hnc
    simp only
    rw [hg i hi, byteAt_eq_none hnc, Option.none_or, List.getElem?_replicate, if_pos hi]
  · intro x hx hc hmax
    simp only
    rw [hg i hi, byteAt_eq_of_greatest hs hx hc hmax]
    have hlt : offset + i - x.1 < x.2.length := by unfold covers at hc; omega
    rw [List.getElem?_eq_getElem hlt, Option.or_some]

/-- C5 (as amended) on two overlapping chunks: `read(1, 6)` on a device of capacity 8. -/
theorem sparse_read_reconstruction_witness :
    ((SparseDataDevice.mk 8 [(0, [4, 5, 6, 2, 3]), (2, [1, 2, 3])]).read [] 1 6).1
      = Error.none ∧
    ((SparseDataDevice.mk 8 [(0, [4, 5, 6, 2, 3]), (2, [1, 2, 3])]).read [] 1 6).2.length = 6 ∧
    ∀ i, i < 6 →
      ((∀ x ∈ (SparseDataDevice.mk 8 [(0, [4, 5, 6, 2, 3]), (2, [1, 2, 3])]).chunks_,
          ¬ covers x (1 + i)) →
        ((SparseDataDevice.mk 8 [(0, [4, 5, 6, 2, 3]), (2, [1, 2, 3])]).read [] 1 6).2[i]?
          = some 0xff) ∧
      (∀ x ∈ (SparseDataDevice.mk 8 [(0, [4, 5, 6, 2, 3]), (2, [1, 2, 3])]).chunks_,
        covers x (1 + i) →
        (∀ y ∈ (SparseDataDevice.mk 8 [(0, [4, 5, 6, 2, 3]), (2, [1, 2, 3])]).chunks_,
          covers y (1 + i) → y.1 ≤ x.1) →
        ((SparseDataDevice.mk 8 [(0, [4, 5, 6, 2, 3]), (2, [1, 2, 3])]).read [] 1 6).2[i]?
          = x.2[1 + i - x.1]?) :=
  sparse_read_reconstruction (SparseDataDevice.mk 8 [(0, [4, 5, 6, 2, 3]), (2, [1, 2, 3])]) []
    1 6 (by decide) (by decide) (by decide) (by decide)

/-- C5 (counterexample). On a `SparseDataDevice(2^64 - 1)` the call
`write({1,2,3,4,5}, 2^64 - 3)` passes the bounds check (the sum wraps to 2) and
stores one chunk at `2^64 - 3`, whose end wraps. The in-bounds
`read(2^64 - 3, 1)` then skips that chunk although it covers the address, and
returns `{0xFF}` where the chunk stores `1`. -/
theorem sparse_read_reconstruction_counterexample :
    ((mk_fresh (sizeMod - 1)).write [1, 2, 3, 4, 5] (sizeMod - 3)).2
      = SparseDataDevice.mk (sizeMod - 1) [(sizeMod - 3, [1, 2, 3, 4, 5])] ∧
    SortedKeys [((sizeMod - 3 : Nat), ([1, 2, 3, 4, 5] : List Byte))] ∧
    (sizeMod - 3) + 1 ≤ (SparseDataDevice.mk (sizeMod - 1) [(sizeMod - 3, [1, 2, 3, 4, 5])]).size_ ∧
    covers ((sizeMod - 3 : Nat), ([1, 2, 3, 4, 5] : List Byte)) (sizeMod - 3 + 0) ∧
    ([1, 2, 3, 4, 5] : List Byte)[(sizeMod - 3 + 0) - (sizeMod - 3)]? = some 1 ∧
    (SparseDataDevice.mk (sizeMod - 1) [(sizeMod - 3, [1, 2, 3, 4, 5])]).read []
      (sizeMod - 3) 1 = (Error.none, [0xff]) := by
  decide

/-! ## A write that finds no chunk starting inside its range -/

theorem rangesDisjoint_iff (x y : Nat × List Byte) :
    RangesDisjoint x y ↔ ∀ a, ¬(covers x a ∧ covers y a) := by
  unfold RangesDisjoint covers
  constructor
  · intro h a; omega
  · intro h
    by_contra hn
    rcases Nat.le_total x.1 y.1 with hle | hle
    · exact h y.1 (by omega)
    · exact h x.1 (by omega)

theorem eq_of_key_eq {m : Chunks} (hs : SortedKeys m) {x y : Nat × List Byte} (hx : x ∈ m)
    (hy : y ∈ m) (hk : x.1 = y.1) : x = y := by
  induction m with
  | nil => cases hx
  | cons z rest ih =>
    unfold SortedKeys at hs
    rw [List.pairwise_cons] at hs
    obtain ⟨hhead, htail⟩ := hs
    rcases List.mem_cons.1 hx with hx1 | hx1 <;> rcases List.mem_cons.1 hy with hy1 | hy1
    · rw [hx1, hy1]
    · have := hhead y hy1; rw [hx1] at hk; omega
    · have := hhead x hx1; rw [hy1] at hk; omega
    · exact ih htail hx1 hy1

/-- The map after an in-bounds `write` issued when no stored chunk starts strictly
inside the written range: the entry under one key `k` is replaced by `pre ++ data`
and nothing else changes. When a stored chunk covers `offset`, `k` is its key and
`pre` its bytes below `offset`; otherwise `k = offset` and `pre` is empty. -/
theorem writeLoop_noInnerStart {cap : Nat} {all : Chunks} {data : List Byte} {offset : Nat}
    (hcap : cap < sizeMod) (hs : SortedKeys all) (hin : InCap cap all)
    (hb : offset + data.length ≤ cap)
    (hP : NoInnerStart all offset (offset + data.length)) :
    ∀ (rest : Chunks), (∀ y ∈ rest, y ∈ all) → SortedKeys rest →
      (∀ y ∈ all, covers y offset → y ∈ rest) →
      ∃ k pre,
        ((∃ d, (k, d) ∈ all ∧ covers (k, d) offset ∧ pre = d.take (offset - k)) ∨
          (k = offset ∧ pre = [] ∧ ∀ y ∈ all, ¬ covers y offset)) ∧
        ∀ x, x ∈ writeLoop all data offset (offset + data.length) rest ↔
          x = (k, pre ++ data) ∨ (x ∈ all ∧ x.1 ≠ k) := by
  intro rest
  induction rest with
  | nil =>
    intro _ _ hvis
    refine ⟨offset, [], Or.inr ⟨rfl, rfl, fun y hy hc => ?_⟩, fun x => ?_⟩
    · cases hvis y hy hc
    · simp only [writeLoop, List.nil_append]
      exact mem_mapInsert hs x
  | cons y rest ih =>
    intro hsub hsr hvis
    obtain ⟨c, d⟩ := y
    have hmem : (c, d) ∈ all := hsub _ (List.mem_cons_self _ _)
    have hcd : c + d.length ≤ cap := hin _ hmem
    have hrest : ∀ y ∈ rest, y ∈ all := fun y hy => hsub y (List.mem_cons_of_mem _ hy)
    unfold SortedKeys at hsr
    rw [List.pairwise_cons] at hsr
    obtain ⟨hhead, htail⟩ := hsr
    simp only [writeLoop, wadd_eq (show c + d.length < sizeMod by omega)]
    split_ifs with h1 h2 h3 h4 h5 h6
    · -- break: the remaining chunks start at or after the end of the write
      by_cases hcov : ∃ y ∈ all, covers y offset
      · obtain ⟨⟨yk, yd⟩, hy, hc⟩ := hcov
        have hyk : yk = offset := by
          have hyr := hvis _ hy hc
          unfold covers at hc
          simp only at hc
          rcases List.mem_cons.1 hyr with h | h
          · have h0 := (Prod.mk.inj h).1; omega
          · have := hhead _ h; simp only at this; omega
        subst hyk
        refine ⟨yk, [], Or.inl ⟨yd, hy, hc, ?_⟩, fun x => ?_⟩
        · simp
        · simp only [List.nil_append]
          exact mem_mapInsert hs x
      · refine ⟨offset, [], Or.inr ⟨rfl, rfl, fun y hy hc => hcov ⟨y, hy, hc⟩⟩, fun x => ?_⟩
        simp only [List.nil_append]
        exact mem_mapInsert hs x
    · -- continue: this chunk ends at or before `offset`
      apply ih hrest htail
      intro y hy hc
      rcases List.mem_cons.1 (hvis y hy hc) with h | h
      · exfalso; rw [h] at hc; unfold covers at hc; simp only at hc; omega
      · exact h
    · -- exact replace
      refine ⟨c, [], Or.inl ⟨d, hmem, ?_, ?_⟩, fun x => ?_⟩
      · unfold covers; simp only; omega
      · rw [h3.1]; simp
      · simp only [List.nil_append]
        exact mem_mapInsert hs x
    · -- the write contains the chunk; here the chunk starts at `offset`
      have hco : c = offset := by
        by_contra hne
        have := hP (c, d) hmem (by simp only; omega)
        simp only at this; omega
      refine ⟨c, [], Or.inl ⟨d, hmem, ?_, ?_⟩, fun x => ?_⟩
      · unfold covers; simp only; omega
      · rw [hco]; simp
      · simp only [List.nil_append]
        rw [← hco, mem_mapInsert (sorted_mapErase hs) x, mem_mapErase]
        tauto
    · -- the chunk starts at or before `offset` and reaches beyond it
      refine ⟨c, d.take (offset - c), Or.inl ⟨d, hmem, ?_, rfl⟩, fun x => ?_⟩
      · unfold covers; simp only; omega
      · have hn : wsub (wadd d.length (offset + data.length)) (c + d.length)
            = (offset - c) + data.length := by
          have := @wsub_wadd_below c d.length (offset + data.length)
            (by omega) (by omega) (by omega)
          rw [wadd_eq (show c + d.length < sizeMod by omega)] at this
          rw [this]; omega
        rw [hn, copyInto_resize_below d data (offset - c) (by omega)]
        exact mem_mapInsert hs x
    · exfalso
      have := hP (c, d) hmem (by simp only; omega)
      simp only at this; omega
    · exfalso
      have := hP (c, d) hmem (by simp only; omega)
      simp only at this; omega

/-! ## Disjointness of the stored chunks -/

/-- Induction over a run whose calls are admitted on the state they are issued on. -/
theorem allowedRun_induction (P : SparseDataDevice → Prop) (ok : SparseDataDevice → Op → Prop)
    (hstep : ∀ dev op, P dev → ok dev op → P (dev.apply op).2) (ops : List Op) :
    ∀ dev : SparseDataDevice, P dev → AllowedRun ok dev ops → P (dev.run ops) := by
  induction ops with
  | nil => intro dev h _; exact h
  | cons op ops ih =>
    intro dev h hok
    simp only [run]
    exact ih _ (hstep dev op h hok.1) hok.2

/-- With pairwise disjoint chunks and no chunk starting strictly inside the written
range, no chunk other than the one under key `k` covers an address of `[k, end)`. -/
theorem no_other_cover {all : Chunks} {offset end_ k : Nat} {pre : List Byte}
    (hd : ChunksDisjoint all) (hP : NoInnerStart all offset end_)
    (hanchor : (∃ d, (k, d) ∈ all ∧ covers (k, d) offset ∧ pre = d.take (offset - k)) ∨
      (k = offset ∧ pre = [] ∧ ∀ y ∈ all, ¬ covers y offset))
    {y : Nat × List Byte} (hy : y ∈ all) (hyk : y.1 ≠ k) {a : Nat} (hka : k ≤ a)
    (hae : a < end_) : ¬ covers y a := by
  intro hc
  have hyo : y.1 ≤ offset := by
    by_contra hn
    have := hP y hy (by omega)
    unfold covers at hc; omega
  rcases hanchor with ⟨d, hkd, hcov, _⟩ | ⟨hk, _, hnone⟩
  · have hne : y ≠ (k, d) := fun h => hyk (by rw [h])
    have hdis := (rangesDisjoint_iff y (k, d)).1 (hd y hy (k, d) hkd hne)
    unfold covers at hc hcov
    simp only at hcov
    by_cases hao : offset ≤ a
    · exact hdis offset ⟨⟨hyo, by omega⟩, hcov⟩
    · exact hdis a ⟨hc, ⟨hka, by simp only; omega⟩⟩
  · apply hnone y hy
    unfold covers at hc ⊢
    omega

theorem anchor_facts {all : Chunks} {offset k : Nat} {pre : List Byte}
    (hanchor : (∃ d, (k, d) ∈ all ∧ covers (k, d) offset ∧ pre = d.take (offset - k)) ∨
      (k = offset ∧ pre = [] ∧ ∀ y ∈ all, ¬ covers y offset)) :
    k + pre.length = offset := by
  rcases hanchor with ⟨d, _, hcov, hpre⟩ | ⟨hk, hpre, _⟩
  · unfold covers at hcov; simp only at hcov
    rw [hpre, List.length_take]; omega
  · rw [hk, hpre]; rfl

theorem writeLoop_disjoint {cap : Nat} {all : Chunks} {data : List Byte} {offset : Nat}
    (hcap : cap < sizeMod) (hs : SortedKeys all) (hin : InCap cap all)
    (hd : ChunksDisjoint all) (hb : offset + data.length ≤ cap)
    (hP : NoInnerStart all offset (offset + data.length)) :
    ChunksDisjoint (writeLoop all data offset (offset + data.length) all) := by
  obtain ⟨k, pre, hanchor, hmem⟩ := writeLoop_noInnerStart hcap hs hin hb hP all
    (fun y hy => hy) hs (fun y hy _ => hy)
  have hkp := anchor_facts hanchor
  have hnew : ∀ y ∈ all, y.1 ≠ k → RangesDisjoint (k, pre ++ data) y := by
    intro y hy hyk
    rw [rangesDisjoint_iff]
    rintro a ⟨hc1, hc2⟩
    unfold covers at hc1
    simp only [List.length_append] at hc1
    exact no_other_cover hd hP hanchor hy hyk hc1.1 (by omega) hc2
  intro x hx y hy hxy
  rcases (hmem x).1 hx with hx1 | ⟨hx1, hxk⟩ <;> rcases (hmem y).1 hy with hy1 | ⟨hy1, hyk⟩
  · exact absurd (hx1.trans hy1.symm) hxy
  · rw [hx1]; exact hnew y hy1 hyk
  · rw [hy1]
    have := hnew x hx1 hxk
    unfold RangesDisjoint at this ⊢
    omega
  · exact hd x hx1 y hy1 hxy

theorem eraseLoop_disjoint {offset end_ : Nat} {m : Chunks} (hd : ChunksDisjoint m) :
    ChunksDisjoint (eraseLoop offset end_ m) :=
  fun x hx y hy hxy => hd x (mem_eraseLoop_imp hx) y (mem_eraseLoop_imp hy) hxy

theorem apply_disjoint (cap : Nat) (hcap : cap < sizeMod) (dev : SparseDataDevice) (op : Op)
    (hinv : dev.size_ = cap ∧ SortedKeys dev.chunks_ ∧ InCap cap dev.chunks_ ∧
      ChunksDisjoint dev.chunks_)
    (hop : NoInnerStartCall dev op) :
    (dev.apply op).2.size_ = cap ∧ SortedKeys (dev.apply op).2.chunks_ ∧
      InCap cap (dev.apply op).2.chunks_ ∧ ChunksDisjoint (dev.apply op).2.chunks_ := by
  obtain ⟨hsz, hs, hin, hd⟩ := hinv
  have hnw : op.NoWrapArgs := by
    cases op with
    | write data offset => exact hop.1
    | erase offset size => exact hop
  refine ⟨by rw [apply_size]; exact hsz, apply_sorted dev op hs, ?_, ?_⟩
  · have := apply_inCap dev op (by omega) hnw (by rw [hsz]; exact hin)
    rw [hsz] at this; exact this
  · cases op with
    | write data offset =>
      simp only [apply]
      by_cases hb : offset + data.length ≤ dev.size_
      · rw [write_inBounds dev data offset (by omega) hb]
        exact writeLoop_disjoint hcap hs hin hd (by omega) (hop.2 hb)
      · rw [write_outOfBounds dev data offset hop.1 (by omega)]
        exact hd
    | erase offset size =>
      simp only [apply, erase]
      split_ifs
      · exact hd
      · exact eraseLoop_disjoint hd

/-- C7 (as amended). Disjointness invariant: in every state reached from a fresh
device by erase and write calls whose `offset + length` does not wrap around
`size_t`, each accepted write being issued when no stored chunk starts strictly
inside `(offset, offset + len(bytes))`, any two distinct stored chunks have
disjoint address ranges. -/
theorem sparse_disjointness_invariant (cap : Nat) (ops : List Op) (hcap : cap < sizeMod)
    (hok : AllowedRun NoInnerStartCall (mk_fresh cap) ops) :
    ∀ x ∈ ((mk_fresh cap).run ops).chunks_, ∀ y ∈ ((mk_fresh cap).run ops).chunks_, x ≠ y →
      ∀ a, ¬(covers x a ∧ covers y a) := by
  have hinv := allowedRun_induction
    (fun dev => dev.size_ = cap ∧ SortedKeys dev.chunks_ ∧ InCap cap dev.chunks_ ∧
      ChunksDisjoint dev.chunks_)
    NoInnerStartCall (fun dev op h hop => apply_disjoint cap hcap dev op h hop) ops
    (mk_fresh cap)
    (by
      refine ⟨rfl, by simp [mk_fresh, SortedKeys], ?_, ?_⟩
      · intro x hx; cases hx
      · intro x hx; cases hx)
    hok
  intro x hx y hy hxy
  exact (rangesDisjoint_iff x y).1 (hinv.2.2.2 x hx y hy hxy)

/-- C7 (as amended) on a run of six calls on a fresh device of capacity 8: the second
write is merged, the map then holds three chunks, one is erased, the last write
is rejected, and two chunks remain. -/
theorem sparse_disjointness_invariant_witness :
    AllowedRun NoInnerStartCall (mk_fresh 8) [Op.write [1, 2, 3] 0, Op.write [1, 2, 3] 1,
      Op.write [7, 8] 5, Op.write [6] 4, Op.erase 4 1, Op.write [9] 9] ∧
    ((mk_fresh 8).run [Op.write [1, 2, 3] 0, Op.write [1, 2, 3] 1,
      Op.write [7, 8] 5, Op.write [6] 4]).chunks_ = [(0, [1, 1, 2, 3]), (4, [6]), (5, [7, 8])] ∧
    ((mk_fresh 8).run [Op.write [1, 2, 3] 0, Op.write [1, 2, 3] 1,
      Op.write [7, 8] 5, Op.write [6] 4, Op.erase 4 1, Op.write [9] 9]).chunks_ = [(0, [1, 1, 2, 3]), (5, [7, 8])] ∧
    ∀ x ∈ ((mk_fresh 8).run [Op.write [1, 2, 3] 0, Op.write [1, 2, 3] 1,
      Op.write [7, 8] 5, Op.write [6] 4, Op.erase 4 1, Op.write [9] 9]).chunks_,
      ∀ y ∈ ((mk_fresh 8).run [Op.write [1, 2, 3] 0, Op.write [1, 2, 3] 1,
      Op.write [7, 8] 5, Op.write [6] 4, Op.erase 4 1, Op.write [9] 9]).chunks_, x ≠ y →
      ∀ a, ¬(covers x a ∧ covers y a) :=
  ⟨by decide, by decide, by decide,
    sparse_disjointness_invariant 8 [Op.write [1, 2, 3] 0, Op.write [1, 2, 3] 1,
      Op.write [7, 8] 5, Op.write [6] 4, Op.erase 4 1, Op.write [9] 9] (by decide) (by decide)⟩

/-- C7 (counterexample). On a fresh device of capacity 100, `write({1,2,3}, 2)`
followed by `write({4,5,6}, 0)` leaves the two chunks `(0, {4,5,6,2,3})` and
`(2, {1,2,3})`, which both cover address 2. -/
theorem sparse_disjointness_invariant_counterexample :
    (∀ op ∈ [Op.write [1, 2, 3] 2, Op.write [4, 5, 6] 0], op.WF) ∧
    ((mk_fresh 100).run [Op.write [1, 2, 3] 2, Op.write [4, 5, 6] 0]).chunks_
      = [(0, [4, 5, 6, 2, 3]), (2, [1, 2, 3])] ∧
    covers ((0 : Nat), ([4, 5, 6, 2, 3] : List Byte)) 2 ∧
    covers ((2 : Nat), ([1, 2, 3] : List Byte)) 2 := by
  decide

/-! ## Write followed by read -/

theorem writeLoop_inCap {cap : Nat} {all : Chunks} {data : List Byte} {offset : Nat}
    (hcap : cap < sizeMod) (hin : InCap cap all) (hb : offset + data.length ≤ cap) :
    InCap cap (writeLoop all data offset (offset + data.length) all) := by
  have := apply_inCap (SparseDataDevice.mk cap all) (Op.write data offset) hcap
    (by unfold Op.NoWrapArgs; simp only [Op.offset, Op.length]; omega) hin
  simp only [apply] at this
  rw [write_inBounds _ data offset hcap hb] at this
  exact this

/-- After an in-bounds `write` issued on pairwise disjoint chunks none of which
starts strictly inside the written range, the byte stored for each written
address is the written byte. -/
theorem byteAt_writeLoop_inside {cap : Nat} {all : Chunks} {data : List Byte} {offset : Nat}
    (hcap : cap < sizeMod) (hs : SortedKeys all) (hin : InCap cap all)
    (hd : ChunksDisjoint all) (hb : offset + data.length ≤ cap)
    (hP : NoInnerStart all offset (offset + data.length)) (i : Nat) (hi : i < data.length) :
    byteAt (writeLoop all data offset (offset + data.length) all) (offset + i) = data[i]? := by
  obtain ⟨k, pre, hanchor, hmem⟩ := writeLoop_noInnerStart hcap hs hin hb hP all
    (fun y hy => hy) hs (fun y hy _ => hy)
  have hkp := anchor_facts hanchor
  have hcov : covers (k, pre ++ data) (offset + i) := by
    unfold covers; simp only [List.length_append]; omega
  rw [byteAt_eq_of_greatest (sorted_writeLoop data offset _ hs all)
    ((hmem _).2 (Or.inl rfl)) hcov]
  · simp only
    rw [List.getElem?_append_right (by omega)]
    congr 1; omega
  · intro y hy hc
    rcases (hmem y).1 hy with h | ⟨h, hyk⟩
    · rw [h]
    · exact absurd hc (no_other_cover hd hP hanchor h hyk (by omega) (by omega))

/-- C1 (as amended). Round trip: on every chunk map whose chunks are pairwise
disjoint and end within the capacity, for every `offset` and `bytes` with
`offset + len(bytes) ≤ capacity` such that no stored chunk starts strictly inside
`(offset, offset + len(bytes))`, `write(bytes, offset)` returns `none` and an
immediately following `read(offset, len(bytes))` returns `none` with a buffer
equal to `bytes`. -/
theorem sparse_round_trip (dev : SparseDataDevice) (buf bytes : List Byte) (offset : Nat)
    (hcap : dev.size_ < sizeMod) (hs : SortedKeys dev.chunks_)
    (hin : InCap dev.size_ dev.chunks_) (hd : ChunksDisjoint dev.chunks_)
    (hb : offset + bytes.length ≤ dev.size_)
    (hP : NoInnerStart dev.chunks_ offset (offset + bytes.length)) :
    (dev.write bytes offset).1 = Error.none ∧
    (dev.write bytes offset).2.read buf offset bytes.length = (Error.none, bytes) := by
  rw [write_inBounds dev bytes offset hcap hb]
  refine ⟨rfl, ?_⟩
  rw [read_inBounds _ buf offset bytes.length (by simp only; omega) (by simp only; omega)]
  simp only
  have hs1 := sorted_writeLoop bytes offset (offset + bytes.length) hs dev.chunks_
  have hw1 := inCap_noWrap hcap (writeLoop_inCap hcap hin hb)
  obtain ⟨hl, hg⟩ := readLoop_spec offset bytes.length (by omega) _
    (List.replicate bytes.length 0xff) hs1 hw1 (List.length_replicate _ _)
  congr 1
  apply List.ext_getElem?
  intro i
  by_cases hi : i < bytes.length
  · rw [hg i hi, byteAt_writeLoop_inside hcap hs hin hd hb hP i hi,
      List.getElem?_eq_getElem hi, Option.or_some]
  · rw [List.getElem?_eq_none (by omega), List.getElem?_eq_none (by omega)]

/-- C1 (as amended) on two stored chunks: a write reaching into the first one from inside. -/
theorem sparse_round_trip_witness :
    ((SparseDataDevice.mk 8 [(0, [1, 2, 3]), (5, [7])]).write [4, 5, 6] 2).1 = Error.none ∧
    ((SparseDataDevice.mk 8 [(0, [1, 2, 3]), (5, [7])]).write [4, 5, 6] 2).2.read [] 2
      ([4, 5, 6] : List Byte).length = (Error.none, [4, 5, 6]) :=
  sparse_round_trip (SparseDataDevice.mk 8 [(0, [1, 2, 3]), (5, [7])]) [] [4, 5, 6] 2
    (by decide) (by decide) (by decide) (by decide) (by decide) (by decide)

/-- C1 (counterexample). On the device of capacity 100 reached by
`write({1,2,3}, 2)`, the in-bounds `write({4,5,6}, 0)` returns `none`, and the
immediately following `read(0, 3)` returns `{4, 5, 1}`, not `{4, 5, 6}`. -/
theorem sparse_round_trip_counterexample :
    (∀ op ∈ [Op.write [1, 2, 3] 2], op.WF) ∧
    (((mk_fresh 100).run [Op.write [1, 2, 3] 2]).write [4, 5, 6] 0).1 = Error.none ∧
    (((mk_fresh 100).run [Op.write [1, 2, 3] 2]).write [4, 5, 6] 0).2.read [] 0 3
      = (Error.none, [4, 5, 1]) := by
  decide

/-! ## Chunks that touch -/

theorem writeLoop_nonAdjacent {cap : Nat} {all : Chunks} {data : List Byte} {offset : Nat}
    (hcap : cap < sizeMod) (hs : SortedKeys all) (hin : InCap cap all)
    (hna : NonAdjacent all) (hne : 1 ≤ data.length) (hb : offset + data.length ≤ cap)
    (hT1 : ∀ x ∈ all, offset < x.1 → offset + data.length < x.1)
    (hT2 : ∀ x ∈ all, x.1 + x.2.length ≠ offset) :
    NonAdjacent (writeLoop all data offset (offset + data.length) all) := by
  have hP : NoInnerStart all offset (offset + data.length) :=
    fun x hx h => Nat.le_of_lt (hT1 x hx h)
  obtain ⟨k, pre, hanchor, hmem⟩ := writeLoop_noInnerStart hcap hs hin hb hP all
    (fun y hy => hy) hs (fun y hy _ => hy)
  have hkp := anchor_facts hanchor
  intro x hx y hy hxy
  rcases (hmem x).1 hx with hx1 | ⟨hx1, hxk⟩ <;> rcases (hmem y).1 hy with hy1 | ⟨hy1, hyk⟩
  · exact absurd (hx1.trans hy1.symm) hxy
  · rw [hx1]
    simp only [List.length_append]
    intro h
    have := hT1 y hy1 (by omega)
    omega
  · rw [hy1]
    simp only
    rcases hanchor with ⟨d, hkd, _, _⟩ | ⟨hk, _, _⟩
    · exact hna x hx1 (k, d) hkd (fun h => hxk (by rw [h]))
    · rw [hk]; exact hT2 x hx1
  · exact hna x hx1 y hy1 hxy

theorem apply_nonAdjacent (cap : Nat) (hcap : cap < sizeMod) (dev : SparseDataDevice) (op : Op)
    (hinv : dev.size_ = cap ∧ SortedKeys dev.chunks_ ∧ InCap cap dev.chunks_ ∧
      NonAdjacent dev.chunks_)
    (hop : MergingWrite dev op) :
    (dev.apply op).2.size_ = cap ∧ SortedKeys (dev.apply op).2.chunks_ ∧
      InCap cap (dev.apply op).2.chunks_ ∧ NonAdjacent (dev.apply op).2.chunks_ := by
  obtain ⟨hsz, hs, hin, hna⟩ := hinv
  cases op with
  | erase offset size => exact absurd hop (by simp [MergingWrite])
  | write data offset =>
    obtain ⟨hne, hb, hT1, hT2⟩ := hop
    refine ⟨by rw [apply_size]; exact hsz, apply_sorted dev _ hs, ?_, ?_⟩
    · have := apply_inCap dev (Op.write data offset) (by omega)
        (by unfold Op.NoWrapArgs; simp only [Op.offset, Op.length]; omega)
        (by rw [hsz]; exact hin)
      rw [hsz] at this; exact this
    · simp only [apply]
      rw [write_inBounds dev data offset (by omega) hb]
      exact writeLoop_nonAdjacent hcap hs hin hna hne (by omega) hT1 hT2


/-! ## Bytes stored outside a written or erased range -/

theorem byteAt_eq_of_covers {m : Chunks} {a : Nat} (hs : SortedKeys m) (hd : ChunksDisjoint m)
    {x : Nat × List Byte} (hx : x ∈ m) (hc : covers x a) : byteAt m a = x.2[a - x.1]? := by
  apply byteAt_eq_of_greatest hs hx hc
  intro y hy hcy
  by_cases hxy : y = x
  · rw [hxy]
  · exact absurd ⟨hcy, hc⟩ ((rangesDisjoint_iff y x).1 (hd y hy x hx hxy) a)

/-- After an in-bounds `write` that meets only whole chunks, the byte stored for an
address outside the written range is what it was. -/
theorem byteAt_writeLoop_outside {cap : Nat} {all : Chunks} {data : List Byte} {offset : Nat}
    (hcap : cap < sizeMod) (hs : SortedKeys all) (hin : InCap cap all)
    (hd : ChunksDisjoint all) (hb : offset + data.length ≤ cap)
    (hP : NoInnerStart all offset (offset + data.length))
    (hQ : ∀ x ∈ all, x.1 ≤ offset → x.1 + x.2.length ≤ offset + data.length)
    (a : Nat) (ha : ¬(offset ≤ a ∧ a < offset + data.length)) :
    byteAt (writeLoop all data offset (offset + data.length) all) a = byteAt all a := by
  obtain ⟨k, pre, hanchor, hmem⟩ := writeLoop_noInnerStart hcap hs hin hb hP all
    (fun y hy => hy) hs (fun y hy _ => hy)
  have hkp := anchor_facts hanchor
  have hs1 := sorted_writeLoop data offset (offset + data.length) hs all
  have hd1 := writeLoop_disjoint hcap hs hin hd hb hP
  by_cases hex : ∃ x ∈ all, covers x a
  · obtain ⟨x, hx, hc⟩ := hex
    rw [byteAt_eq_of_covers hs hd hx hc]
    by_cases hxk : x.1 = k
    · rcases hanchor with ⟨d, hkd, hcov, hpre⟩ | ⟨hk, _, hnone⟩
      · have hxe : x = (k, d) := eq_of_key_eq hs hx hkd hxk
        have hq := hQ x hx (by rw [hxk]; omega)
        rw [hxe] at hc hq ⊢
        unfold covers at hc hcov
        simp only at hc hcov hq
        have hnew : covers (k, pre ++ data) a := by
          unfold covers; simp only [List.length_append]; omega
        rw [byteAt_eq_of_covers hs1 hd1 ((hmem _).2 (Or.inl rfl)) hnew]
        simp only
        rw [List.getElem?_append_left (by omega), hpre, List.getElem?_take_of_lt (by omega)]
      · exfalso
        apply hnone x hx
        unfold covers at hc ⊢
        omega
    · exact byteAt_eq_of_covers hs1 hd1 ((hmem x).2 (Or.inr ⟨hx, hxk⟩)) hc
  · rw [byteAt_eq_none (fun x hx hc => hex ⟨x, hx, hc⟩)]
    apply byteAt_eq_none
    intro y hy hc
    rcases (hmem y).1 hy with h | ⟨h, _⟩
    · rw [h] at hc
      unfold covers at hc
      simp only [List.length_append] at hc
      rcases hanchor with ⟨d, hkd, hcov, _⟩ | ⟨hk, _, _⟩
      · apply hex
        refine ⟨(k, d), hkd, ?_⟩
        unfold covers at hcov ⊢
        simp only at hcov ⊢
        omega
      · omega
    · exact hex ⟨y, h, hc⟩

/-- After an in-bounds `erase` that meets only whole chunks, no byte is stored for
an erased address and the byte stored for any other address is what it was. -/
theorem byteAt_eraseLoop {all : Chunks} {offset size : Nat} (hs : SortedKeys all)
    (hd : ChunksDisjoint all)
    (h1 : ∀ x ∈ all, x.1 < offset → x.1 + x.2.length ≤ offset)
    (h2 : ∀ x ∈ all, offset ≤ x.1 → x.1 < offset + size → x.1 + x.2.length ≤ offset + size)
    (a : Nat) :
    byteAt (eraseLoop offset (offset + size) all) a
      = if offset ≤ a ∧ a < offset + size then none else byteAt all a := by
  have hs1 : SortedKeys (eraseLoop offset (offset + size) all) := sorted_eraseLoop hs
  have hd1 : ChunksDisjoint (eraseLoop offset (offset + size) all) := eraseLoop_disjoint hd
  split_ifs with ha
  · apply byteAt_eq_none
    intro y hy hc
    have hm := (mem_eraseLoop hs y).1 hy
    have := h1 y hm.1
    unfold covers at hc
    omega
  · by_cases hex : ∃ x ∈ all, covers x a
    · obtain ⟨x, hx, hc⟩ := hex
      have hx1 : x ∈ eraseLoop offset (offset + size) all := by
        rw [mem_eraseLoop hs]
        refine ⟨hx, fun hr => ?_⟩
        have := h2 x hx hr.1 hr.2
        unfold covers at hc
        omega
      rw [byteAt_eq_of_covers hs hd hx hc, byteAt_eq_of_covers hs1 hd1 hx1 hc]
    · rw [byteAt_eq_none (fun x hx hc => hex ⟨x, hx, hc⟩)]
      exact byteAt_eq_none (fun y hy hc => hex ⟨y, mem_eraseLoop_imp hy, hc⟩)

/-! ## The sparse device against the flat device -/

theorem string_write_inBounds (sdev : StringFlashDevice) (data : List Byte) (offset : Nat)
    (hcap : sdev.data_.length < sizeMod) (hb : offset + data.length ≤ sdev.data_.length) :
    sdev.write data offset = (Error.none, { data_ := copyInto sdev.data_ offset data }) := by
  unfold StringFlashDevice.write
  rw [wadd_eq (by omega), if_neg (by omega)]

theorem string_write_outOfBounds (sdev : StringFlashDevice) (data : List Byte) (offset : Nat)
    (hnw : offset + data.length < sizeMod) (hb : sdev.data_.length < offset + data.length) :
    sdev.write data offset = (Error.out_of_bounds, sdev) := by
  unfold StringFlashDevice.write
  rw [wadd_eq hnw, if_pos hb]

theorem string_erase_inBounds (sdev : StringFlashDevice) (offset size : Nat)
    (hcap : sdev.data_.length < sizeMod) (hb : offset + size ≤ sdev.data_.length) :
    sdev.erase offset size
      = (Error.none, { data_ := copyInto sdev.data_ offset (List.replicate size 0xff) }) := by
  unfold StringFlashDevice.erase
  rw [wadd_eq (by omega), if_neg (by omega)]

theorem string_erase_outOfBounds (sdev : StringFlashDevice) (offset size : Nat)
    (hnw : offset + size < sizeMod) (hb : sdev.data_.length < offset + size) :
    sdev.erase offset size = (Error.out_of_bounds, sdev) := by
  unfold StringFlashDevice.erase
  rw [wadd_eq hnw, if_pos hb]

/-- Both devices take the same decision in the bounds check of a call that does not
wrap, and the flat device keeps its length. -/
theorem apply_errors_agree (n : Nat) (hn : n < sizeMod) (dev : SparseDataDevice)
    (sdev : StringFlashDevice) (op : Op) (hsz : dev.size_ = n ∧ sdev.data_.length = n)
    (hnw : op.NoWrapArgs) :
    (dev.apply op).1 = (sdev.apply op).1 ∧
      ((dev.apply op).2.size_ = n ∧ (sdev.apply op).2.data_.length = n) := by
  obtain ⟨h1, h2⟩ := hsz
  refine ⟨?_, by rw [apply_size]; exact h1, ?_⟩
  · cases op with
    | write data offset =>
      unfold Op.NoWrapArgs at hnw; simp only [Op.offset, Op.length] at hnw
      simp only [apply, StringFlashDevice.apply]
      by_cases hb : offset + data.length ≤ n
      · rw [write_inBounds dev data offset (by omega) (by omega),
          string_write_inBounds sdev data offset (by omega) (by omega)]
      · rw [write_outOfBounds dev data offset hnw (by omega),
          string_write_outOfBounds sdev data offset hnw (by omega)]
    | erase offset size =>
      unfold Op.NoWrapArgs at hnw; simp only [Op.offset, Op.length] at hnw
      simp only [apply, StringFlashDevice.apply]
      by_cases hb : offset + size ≤ n
      · rw [erase_inBounds dev offset size (by omega) (by omega),
          string_erase_inBounds sdev offset size (by omega) (by omega)]
      · rw [erase_outOfBounds dev offset size hnw (by omega),
          string_erase_outOfBounds sdev offset size hnw (by omega)]
  · cases op with
    | write data offset =>
      unfold Op.NoWrapArgs at hnw; simp only [Op.offset, Op.length] at hnw
      simp only [StringFlashDevice.apply]
      by_cases hb : offset + data.length ≤ n
      · rw [string_write_inBounds sdev data offset (by omega) (by omega)]
        simp only
        rw [length_copyInto (by omega)]; exact h2
      · rw [string_write_outOfBounds sdev data offset hnw (by omega)]; exact h2
    | erase offset size =>
      unfold Op.NoWrapArgs at hnw; simp only [Op.offset, Op.length] at hnw
      simp only [StringFlashDevice.apply]
      by_cases hb : offset + size ≤ n
      · rw [string_erase_inBounds sdev offset size (by omega) (by omega)]
        simp only
        rw [length_copyInto (by rw [List.length_replicate]; omega)]; exact h2
      · rw [string_erase_outOfBounds sdev offset size hnw (by omega)]; exact h2

theorem run_errors_agree (n : Nat) (hn : n < sizeMod) (ops : List Op) :
    ∀ (dev : SparseDataDevice) (sdev : StringFlashDevice),
      dev.size_ = n ∧ sdev.data_.length = n → (∀ op ∈ ops, op.NoWrapArgs) →
      dev.errors ops = sdev.errors ops ∧
        ((dev.run ops).size_ = n ∧ (sdev.run ops).data_.length = n) := by
  induction ops with
  | nil => intro dev sdev h _; exact ⟨rfl, h⟩
  | cons op ops ih =>
    intro dev sdev h hnw
    obtain ⟨he, hs⟩ := apply_errors_agree n hn dev sdev op h (hnw op (List.mem_cons_self _ _))
    obtain ⟨he2, hs2⟩ := ih _ _ hs (fun o ho => hnw o (List.mem_cons_of_mem _ ho))
    simp only [errors, StringFlashDevice.errors, run, StringFlashDevice.run]
    exact ⟨by rw [he, he2], hs2⟩

/-- The simulation relation between the two devices: same size, well-formed
disjoint chunks, and the flat contents are the stored bytes over the fill byte. -/
theorem apply_sim (n : Nat) (hn : n < sizeMod) (dev : SparseDataDevice)
    (sdev : StringFlashDevice) (op : Op)
    (hsim : (dev.size_ = n ∧ sdev.data_.length = n) ∧ SortedKeys dev.chunks_ ∧
      InCap n dev.chunks_ ∧ ChunksDisjoint dev.chunks_ ∧
      ∀ a, a < n → sdev.data_[a]? = (byteAt dev.chunks_ a).or (some 0xff))
    (hop : CleanCall dev op) :
    ((dev.apply op).2.size_ = n ∧ (sdev.apply op).2.data_.length = n) ∧
      SortedKeys (dev.apply op).2.chunks_ ∧ InCap n (dev.apply op).2.chunks_ ∧
      ChunksDisjoint (dev.apply op).2.chunks_ ∧
      ∀ a, a < n → (sdev.apply op).2.data_[a]? = (byteAt (dev.apply op).2.chunks_ a).or (some 0xff) := by
  obtain ⟨hsz, hs, hin, hd, hflat⟩ := hsim
  have hnw : op.NoWrapArgs := by
    cases op with
    | write data offset => exact hop.1
    | erase offset size => exact hop.1
  have hinc : InCap n (dev.apply op).2.chunks_ := by
    have := apply_inCap dev op (by omega) hnw (by rw [hsz.1]; exact hin)
    rw [hsz.1] at this; exact this
  refine ⟨(apply_errors_agree n hn dev sdev op hsz hnw).2, apply_sorted dev op hs, hinc, ?_, ?_⟩
  · cases op with
    | write data offset =>
      simp only [apply]
      by_cases hb : offset + data.length ≤ n
      · rw [write_inBounds dev data offset (by omega) (by omega)]
        exact writeLoop_disjoint hn hs hin hd hb
          (fun x hx => ((hop.2 (by omega)) x hx).1)
      · rw [write_outOfBounds dev data offset hop.1 (by omega)]; exact hd
    | erase offset size =>
      simp only [apply, erase]
      split_ifs
      · exact hd
      · exact eraseLoop_disjoint hd
  · intro a ha
    cases op with
    | write data offset =>
      simp only [apply, StringFlashDevice.apply]
      by_cases hb : offset + data.length ≤ n
      · have hcl := hop.2 (by omega)
        rw [write_inBounds dev data offset (by omega) (by omega),
          string_write_inBounds sdev data offset (by omega) (by omega)]
        simp only
        rw [getElem?_copyInto (by omega)]
        split_ifs with hr
        · have hi : a - offset < data.length := by omega
          have := byteAt_writeLoop_inside hn hs hin hd hb (fun x hx => (hcl x hx).1)
            (a - offset) hi
          rw [show offset + (a - offset) = a by omega] at this
          rw [this, List.getElem?_eq_getElem hi, Option.or_some]
        · rw [byteAt_writeLoop_outside hn hs hin hd hb (fun x hx => (hcl x hx).1)
            (fun x hx => (hcl x hx).2) a hr]
          exact hflat a ha
      · rw [write_outOfBounds dev data offset hop.1 (by omega),
          string_write_outOfBounds sdev data offset hop.1 (by omega)]
        exact hflat a ha
    | erase offset size =>
      simp only [apply, StringFlashDevice.apply]
      by_cases hb : offset + size ≤ n
      · have hcl := hop.2 (by omega)
        rw [erase_inBounds dev offset size (by omega) (by omega),
          string_erase_inBounds sdev offset size (by omega) (by omega)]
        simp only
        rw [getElem?_copyInto (by rw [List.length_replicate]; omega), List.length_replicate,
          byteAt_eraseLoop hs hd (fun x hx => (hcl x hx).1) (fun x hx => (hcl x hx).2) a]
        split_ifs with hr
        · rw [List.getElem?_replicate, if_pos (by omega), Option.none_or]
        · exact hflat a ha
      · rw [erase_outOfBounds dev offset size hop.1 (by omega),
          string_erase_outOfBounds sdev offset size hop.1 (by omega)]
        exact hflat a ha

theorem run_sim (n : Nat) (hn : n < sizeMod) (ops : List Op) :
    ∀ (dev : SparseDataDevice) (sdev : StringFlashDevice),
      ((dev.size_ = n ∧ sdev.data_.length = n) ∧ SortedKeys dev.chunks_ ∧
        InCap n dev.chunks_ ∧ ChunksDisjoint dev.chunks_ ∧
        ∀ a, a < n → sdev.data_[a]? = (byteAt dev.chunks_ a).or (some 0xff)) →
      AllowedRun CleanCall dev ops →
      ((dev.run ops).size_ = n ∧ (sdev.run ops).data_.length = n) ∧
        SortedKeys (dev.run ops).chunks_ ∧ InCap n (dev.run ops).chunks_ ∧
        ChunksDisjoint (dev.run ops).chunks_ ∧
        ∀ a, a < n → (sdev.run ops).data_[a]? = (byteAt (dev.run ops).chunks_ a).or (some 0xff) := by
  induction ops with
  | nil => intro dev sdev h _; exact h
  | cons op ops ih =>
    intro dev sdev h hok
    simp only [run, StringFlashDevice.run]
    exact ih _ _ (apply_sim n hn dev sdev op h hok.1) hok.2

theorem read_agree (n : Nat) (hn : n < sizeMod) (dev : SparseDataDevice)
    (sdev : StringFlashDevice)
    (hsim : (dev.size_ = n ∧ sdev.data_.length = n) ∧ SortedKeys dev.chunks_ ∧
      InCap n dev.chunks_ ∧ ChunksDisjoint dev.chunks_ ∧
      ∀ a, a < n → sdev.data_[a]? = (byteAt dev.chunks_ a).or (some 0xff))
    (buf : List Byte) (offset length : Nat) (hnw : offset + length < sizeMod) :
    dev.read buf offset length = sdev.read buf offset length := by
  obtain ⟨hsz, hs, hin, _, hflat⟩ := hsim
  by_cases hb : offset + length ≤ n
  · rw [read_inBounds dev buf offset length (by omega) (by omega)]
    unfold StringFlashDevice.read
    rw [wadd_eq hnw, if_neg (by omega)]
    congr 1
    obtain ⟨hl, hg⟩ := readLoop_spec offset length hnw dev.chunks_
      (List.replicate length 0xff) hs (inCap_noWrap hn hin) (List.length_replicate _ _)
    have hsrc : ((sdev.data_.drop offset).take length).length = length := by
      rw [List.length_take, List.length_drop]; omega
    apply List.ext_getElem?
    intro i
    rw [getElem?_copyInto (by rw [length_resize, hsrc]; omega), hsrc]
    by_cases hi : i < length
    · rw [hg i hi, if_pos (by omega), List.getElem?_take_of_lt (by omega), List.getElem?_drop,
        Nat.sub_zero, hflat (offset + i) (by omega), List.getElem?_replicate, if_pos hi]
    · rw [if_neg (by omega), List.getElem?_eq_none (by omega),
        List.getElem?_eq_none (by rw [length_resize]; omega)]
  · unfold SparseDataDevice.read StringFlashDevice.read
    rw [wadd_eq hnw, if_pos (by omega), if_pos (by omega)]

/-- C6 (as amended). Backend equivalence: for every capacity `n` and every sequence
of write and erase calls whose `offset + length` does not wrap around `size_t`,
applied to a fresh `SparseDataDevice(n)` and a fresh `StringFlashDevice(n)`, each
call returns the same error code on both devices and afterwards every read
returns the same error code on both; when moreover every call the bounds check
accepts meets only whole chunks (`CleanCall`), every read returns the same
buffer on both devices. -/
theorem backend_equivalence (n : Nat) (ops : List Op) (hn : n < sizeMod)
    (hnw : ∀ op ∈ ops, op.NoWrapArgs) :
    (mk_fresh n).errors ops = (StringFlashDevice.mk_fresh n).errors ops ∧
    (∀ buf offset length, offset + length < sizeMod →
      (((mk_fresh n).run ops).read buf offset length).1
        = (((StringFlashDevice.mk_fresh n).run ops).read buf offset length).1) ∧
    (AllowedRun CleanCall (mk_fresh n) ops →
      ∀ buf offset length, offset + length < sizeMod →
        ((mk_fresh n).run ops).read buf offset length
          = ((StringFlashDevice.mk_fresh n).run ops).read buf offset length) := by
  have h0 : (mk_fresh n).size_ = n ∧ (StringFlashDevice.mk_fresh n).data_.length = n :=
    ⟨rfl, by simp [StringFlashDevice.mk_fresh]⟩
  obtain ⟨herr, hsz⟩ := run_errors_agree n hn ops _ _ h0 hnw
  refine ⟨herr, ?_, ?_⟩
  · intro buf offset length hl
    unfold SparseDataDevice.read StringFlashDevice.read
    rw [hsz.1, hsz.2]
    split_ifs <;> rfl
  · intro hok buf offset length hl
    apply read_agree n hn _ _ _ buf offset length hl
    apply run_sim n hn ops _ _ _ hok
    refine ⟨h0, by simp [mk_fresh, SortedKeys], ?_, ?_, ?_⟩
    · intro x hx; cases hx
    · intro x hx; cases hx
    · intro a ha
      simp [mk_fresh, StringFlashDevice.mk_fresh, byteAt, List.getElem?_replicate, ha]

/-- C6 (as amended) on a run of six calls on fresh devices of capacity 8: a merged
write, a second chunk, a rejected erase, an erase of the first chunk and a new
write. Two chunks remain, and both devices read `0xFF 9 0xFF 0xFF 0xFF 0xFF 7 8`. -/
theorem backend_equivalence_witness :
    AllowedRun CleanCall (mk_fresh 8)
      [Op.write [1, 2, 3] 0, Op.write [4, 5, 6] 2, Op.write [7, 8] 6, Op.erase 7 2,
        Op.erase 0 5, Op.write [9] 1] ∧
    ((mk_fresh 8).run
      [Op.write [1, 2, 3] 0, Op.write [4, 5, 6] 2, Op.write [7, 8] 6, Op.erase 7 2,
        Op.erase 0 5, Op.write [9] 1]).chunks_ = [(1, [9]), (6, [7, 8])] ∧
    ((StringFlashDevice.mk_fresh 8).run
      [Op.write [1, 2, 3] 0, Op.write [4, 5, 6] 2, Op.write [7, 8] 6, Op.erase 7 2,
        Op.erase 0 5, Op.write [9] 1]).data_ = [0xff, 9, 0xff, 0xff, 0xff, 0xff, 7, 8] ∧
    ((mk_fresh 8).run
      [Op.write [1, 2, 3] 0, Op.write [4, 5, 6] 2, Op.write [7, 8] 6, Op.erase 7 2,
        Op.erase 0 5, Op.write [9] 1]).read [] 0 8 = (Error.none, [0xff, 9, 0xff, 0xff, 0xff, 0xff, 7, 8]) ∧
    (mk_fresh 8).errors
      [Op.write [1, 2, 3] 0, Op.write [4, 5, 6] 2, Op.write [7, 8] 6, Op.erase 7 2,
        Op.erase 0 5, Op.write [9] 1]
      = (StringFlashDevice.mk_fresh 8).errors
      [Op.write [1, 2, 3] 0, Op.write [4, 5, 6] 2, Op.write [7, 8] 6, Op.erase 7 2,
        Op.erase 0 5, Op.write [9] 1] ∧
    (∀ buf offset length, offset + length < sizeMod →
      (((mk_fresh 8).run
      [Op.write [1, 2, 3] 0, Op.write [4, 5, 6] 2, Op.write [7, 8] 6, Op.erase 7 2,
        Op.erase 0 5, Op.write [9] 1]).read buf offset length).1
        = (((StringFlashDevice.mk_fresh 8).run
      [Op.write [1, 2, 3] 0, Op.write [4, 5, 6] 2, Op.write [7, 8] 6, Op.erase 7 2,
        Op.erase 0 5, Op.write [9] 1]).read buf offset length).1) ∧
    (∀ buf offset length, offset + length < sizeMod →
      ((mk_fresh 8).run
      [Op.write [1, 2, 3] 0, Op.write [4, 5, 6] 2, Op.write [7, 8] 6, Op.erase 7 2,
        Op.erase 0 5, Op.write [9] 1]).read buf offset length
        = ((StringFlashDevice.mk_fresh 8).run
      [Op.write [1, 2, 3] 0, Op.write [4, 5, 6] 2, Op.write [7, 8] 6, Op.erase 7 2,
        Op.erase 0 5, Op.write [9] 1]).read buf offset length) :=
  ⟨by decide, by decide, by decide, by decide,
    (backend_equivalence 8
      [Op.write [1, 2, 3] 0, Op.write [4, 5, 6] 2, Op.write [7, 8] 6, Op.erase 7 2,
        Op.erase 0 5, Op.write [9] 1]
      (by decide) (by decide)).1,
    (backend_equivalence 8
      [Op.write [1, 2, 3] 0, Op.write [4, 5, 6] 2, Op.write [7, 8] 6, Op.erase 7 2,
        Op.erase 0 5, Op.write [9] 1]
      (by decide) (by decide)).2.1,
    (backend_equivalence 8
      [Op.write [1, 2, 3] 0, Op.write [4, 5, 6] 2, Op.write [7, 8] 6, Op.erase 7 2,
        Op.erase 0 5, Op.write [9] 1]
      (by decide) (by decide)).2.2 (by decide)⟩

/-- C6 (counterexample). After `write({1,2,3}, 2)` and `write({4,5,6}, 0)` on fresh
devices of capacity 100, `read(0, 3)` succeeds on both and returns `{4, 5, 1}` on
the sparse device but `{4, 5, 6}` on the flat device. -/
theorem backend_equivalence_counterexample :
    (mk_fresh 100).errors [Op.write [1, 2, 3] 2, Op.write [4, 5, 6] 0]
      = [Error.none, Error.none] ∧
    (StringFlashDevice.mk_fresh 100).errors [Op.write [1, 2, 3] 2, Op.write [4, 5, 6] 0]
      = [Error.none, Error.none] ∧
    ((mk_fresh 100).run [Op.write [1, 2, 3] 2, Op.write [4, 5, 6] 0]).read [] 0 3
      = (Error.none, [4, 5, 1]) ∧
    ((StringFlashDevice.mk_fresh 100).run [Op.write [1, 2, 3] 2, Op.write [4, 5, 6] 0]).read
      [] 0 3 = (Error.none, [4, 5, 6]) := by
  decide

/-! ## Erase as deletion by start offset -/

theorem eraseLoop_eq_filter {offset end_ : Nat} {m : Chunks} (hs : SortedKeys m) :
    eraseLoop offset end_ m = m.filter (fun x => decide (¬(offset ≤ x.1 ∧ x.1 < end_))) := by
  induction m with
  | nil => simp [eraseLoop]
  | cons y rest ih =>
    unfold SortedKeys at hs
    rw [List.pairwise_cons] at hs
    obtain ⟨hhead, htail⟩ := hs
    have ih := ih htail
    unfold eraseLoop at ih ⊢
    by_cases h1 : y.1 < offset
    · have hkeep : decide (¬(offset ≤ y.1 ∧ y.1 < end_)) = true := by
        rw [decide_eq_true_iff]; omega
      rw [@List.filter_cons_of_pos _ (fun x : Nat × List Byte => decide (¬(offset ≤ x.1 ∧ x.1 < end_))) y rest hkeep, ← ih]
      simp only [List.takeWhile_cons, List.dropWhile_cons, h1, decide_True, if_true,
        List.cons_append]
    · have hall : ∀ z ∈ rest, ¬ z.1 < offset := by
        intro z hz; have := hhead z hz; omega
      have htw : rest.takeWhile (fun x => decide (x.1 < offset)) = [] := by
        cases rest with
        | nil => rfl
        | cons z zs =>
          have := hall z (List.mem_cons_self _ _)
          simp [List.takeWhile_cons, this]
      have hdw : rest.dropWhile (fun x => decide (x.1 < offset)) = rest := by
        cases rest with
        | nil => rfl
        | cons z zs =>
          have := hall z (List.mem_cons_self _ _)
          simp [List.dropWhile_cons, this]
      rw [htw, hdw] at ih
      simp only [List.nil_append] at ih
      by_cases h2 : y.1 < end_
      · have hdrop : ¬ (decide (¬(offset ≤ y.1 ∧ y.1 < end_)) = true) := by
          rw [decide_eq_true_iff]; omega
        rw [@List.filter_cons_of_neg _ (fun x : Nat × List Byte => decide (¬(offset ≤ x.1 ∧ x.1 < end_))) y rest hdrop, ← ih]
        simp only [List.takeWhile_cons, List.dropWhile_cons, h1, h2, decide_False, decide_True,
          List.nil_append, if_true, if_false, Bool.false_eq_true]
      · have hkeep : decide (¬(offset ≤ y.1 ∧ y.1 < end_)) = true := by
          rw [decide_eq_true_iff]; omega
        have hrest : rest.filter (fun x => decide (¬(offset ≤ x.1 ∧ x.1 < end_))) = rest := by
          rw [List.filter_eq_self]
          intro z hz
          have := hhead z hz
          rw [decide_eq_true_iff]; omega
        rw [@List.filter_cons_of_pos _ (fun x : Nat × List Byte => decide (¬(offset ≤ x.1 ∧ x.1 < end_))) y rest hkeep, hrest]
        simp only [List.takeWhile_cons, List.dropWhile_cons, h1, h2, decide_False,
          List.nil_append, if_false, Bool.false_eq_true]

/-- C11. Erase is deletion by start-offset membership: for every chunk map and every
`offset`, `length` with `offset + length ≤ capacity`, `erase(offset, length)`
returns `none`; the new map is the old map, in order and with the bytes
untouched, without the entries whose start offset lies in
`[offset, offset + length)`; `used_chunks()` drops by the number of those entries. -/
theorem sparse_erase_by_start_offset (dev : SparseDataDevice) (offset length : Nat)
    (hs : SortedKeys dev.chunks_) (hcap : dev.size_ < sizeMod)
    (hb : offset + length ≤ dev.size_) :
    (dev.erase offset length).1 = Error.none ∧
    (dev.erase offset length).2.chunks_
      = dev.chunks_.filter (fun x => decide (¬(offset ≤ x.1 ∧ x.1 < offset + length))) ∧
    (∀ x, x ∈ (dev.erase offset length).2.chunks_ ↔
      x ∈ dev.chunks_ ∧ ¬(offset ≤ x.1 ∧ x.1 < offset + length)) ∧
    (dev.erase offset length).2.used_chunks
        + dev.chunks_.countP (fun x => decide (offset ≤ x.1 ∧ x.1 < offset + length))
      = dev.used_chunks := by
  rw [erase_inBounds dev offset length hcap hb]
  refine ⟨rfl, eraseLoop_eq_filter hs, fun x => mem_eraseLoop hs x, ?_⟩
  simp only [used_chunks]
  rw [eraseLoop_eq_filter hs, List.countP_eq_length_filter]
  have h := @List.length_eq_length_filter_add _ dev.chunks_
    (fun x : Nat × List Byte => decide (¬(offset ≤ x.1 ∧ x.1 < offset + length)))
  rw [h]
  congr 2
  apply List.filter_congr
  intro x _
  by_cases hx : offset ≤ x.1 ∧ x.1 < offset + length <;> simp [hx]

/-- C11 on a device of capacity 16 holding four chunks: `erase(2, 5)` deletes the
two chunks starting at 2 and at 6, the second one reaching beyond the range. -/
theorem sparse_erase_by_start_offset_witness :
    ((SparseDataDevice.mk 16 [(0, [1, 2, 3]), (2, [4]), (6, [5, 6, 7]), (12, [8])]).erase
      2 5).1 = Error.none ∧
    ((SparseDataDevice.mk 16 [(0, [1, 2, 3]), (2, [4]), (6, [5, 6, 7]), (12, [8])]).erase
      2 5).2.chunks_
      = (SparseDataDevice.mk 16 [(0, [1, 2, 3]), (2, [4]), (6, [5, 6, 7]), (12, [8])]).chunks_.filter
          (fun x => decide (¬(2 ≤ x.1 ∧ x.1 < 2 + 5))) ∧
    (∀ x, x ∈ ((SparseDataDevice.mk 16 [(0, [1, 2, 3]), (2, [4]), (6, [5, 6, 7]),
        (12, [8])]).erase 2 5).2.chunks_ ↔
      x ∈ (SparseDataDevice.mk 16 [(0, [1, 2, 3]), (2, [4]), (6, [5, 6, 7]), (12, [8])]).chunks_
        ∧ ¬(2 ≤ x.1 ∧ x.1 < 2 + 5)) ∧
    ((SparseDataDevice.mk 16 [(0, [1, 2, 3]), (2, [4]), (6, [5, 6, 7]), (12, [8])]).erase
      2 5).2.used_chunks
        + (SparseDataDevice.mk 16 [(0, [1, 2, 3]), (2, [4]), (6, [5, 6, 7]),
            (12, [8])]).chunks_.countP (fun x => decide (2 ≤ x.1 ∧ x.1 < 2 + 5))
      = (SparseDataDevice.mk 16 [(0, [1, 2, 3]), (2, [4]), (6, [5, 6, 7]), (12, [8])]).used_chunks :=
  sparse_erase_by_start_offset
    (SparseDataDevice.mk 16 [(0, [1, 2, 3]), (2, [4]), (6, [5, 6, 7]), (12, [8])]) 2 5
    (by decide) (by decide) (by decide)

/-! ## The branch a write takes -/

theorem mapInsert_eq_map {k : Nat} {v v0 : List Byte} {m : Chunks} (hs : SortedKeys m)
    (hm : (k, v0) ∈ m) :
    mapInsert k v m = m.map (fun x => if x.1 = k then (k, v) else x) := by
  induction m with
  | nil => cases hm
  | cons y rest ih =>
    obtain ⟨c, d⟩ := y
    unfold SortedKeys at hs
    rw [List.pairwise_cons] at hs
    obtain ⟨hhead, htail⟩ := hs
    simp only [mapInsert, List.map_cons]
    rcases List.mem_cons.1 hm with h | h
    · have hkc : k = c := (Prod.mk.inj h).1
      subst hkc
      rw [if_neg (by omega), if_pos rfl, if_pos rfl]
      congr 1
      symm
      conv_rhs => rw [← List.map_id rest]
      apply List.map_congr_left
      intro z hz
      have := hhead z hz
      simp only at this
      rw [if_neg (by omega)]; rfl
    · have := hhead _ h
      simp only at this
      rw [if_neg (by omega), if_neg (by omega), if_neg (by omega), ih htail h]

theorem length_mapInsert_of_not_mem {k : Nat} {v : List Byte} {m : Chunks}
    (hk : ∀ x ∈ m, x.1 ≠ k) : (mapInsert k v m).length = m.length + 1 := by
  induction m with
  | nil => rfl
  | cons y rest ih =>
    obtain ⟨c, d⟩ := y
    have hc : c ≠ k := hk (c, d) (List.mem_cons_self _ _)
    simp only [mapInsert]
    split_ifs with h1 h2
    · rfl
    · exact absurd h2.symm hc
    · simp only [List.length_cons]
      rw [ih (fun x hx => hk x (List.mem_cons_of_mem _ hx))]

/-- The result of `write` is fixed by the branch the scan leaves by. -/
theorem writeLoop_eq_branch (all : Chunks) (data : List Byte) (offset end_ : Nat) :
    ∀ rest : Chunks, writeLoop all data offset end_ rest =
      match writeBranch data offset end_ rest with
      | Branch.insert => mapInsert offset data all
      | Branch.replace c _ => mapInsert c data all
      | Branch.contain c _ => mapInsert offset data (mapErase c all)
      | Branch.below c d =>
        mapInsert c
          (copyInto (resize d (wsub (wadd d.length end_) (wadd c d.length)))
            ((resize d (wsub (wadd d.length end_) (wadd c d.length))).length - data.length)
            data) all
      | Branch.above c d =>
        mapInsert offset
          (copyInto (resize data (wadd data.length (wsub (wadd c d.length) end_)))
            ((resize data (wadd data.length (wsub (wadd c d.length) end_))).length
              - wsub (wadd c d.length) end_)
            (d.drop (wsub d.length (wsub (wadd c d.length) end_)))) all := by
  intro rest
  induction rest with
  | nil => rfl
  | cons y rest ih =>
    obtain ⟨c, d⟩ := y
    simp only [writeLoop, writeBranch]
    split_ifs <;> first | rfl | exact ih

/-- The scan passes over the chunks that start below the end of the write and end
at or before `offset`. -/
theorem writeBranch_skip_to (data : List Byte) (offset end_ : Nat) :
    ∀ rest : Chunks, SortedKeys rest → ∀ x ∈ rest,
      (∀ y ∈ rest, y.1 < x.1 → y.1 < end_ ∧ wadd y.1 y.2.length ≤ offset) →
      ∃ post, writeBranch data offset end_ rest = writeBranch data offset end_ (x :: post) := by
  intro rest
  induction rest with
  | nil => intro _ x hx; cases hx
  | cons y rest ih =>
    intro hs x hx hskip
    unfold SortedKeys at hs
    rw [List.pairwise_cons] at hs
    obtain ⟨hhead, htail⟩ := hs
    rcases List.mem_cons.1 hx with h | h
    · exact ⟨rest, by rw [h]⟩
    · have hlt := hhead x h
      obtain ⟨h1, h2⟩ := hskip y (List.mem_cons_self _ _) hlt
      obtain ⟨post, hpost⟩ := ih htail x h
        (fun z hz hzx => hskip z (List.mem_cons_of_mem _ hz) hzx)
      refine ⟨post, ?_⟩
      rw [← hpost]
      obtain ⟨c, d⟩ := y
      simp only at h1 h2
      simp only [writeBranch]
      rw [if_neg (by omega), if_pos h2]

/-- With pairwise disjoint non-empty chunks, every chunk starting before a chunk that
covers `offset` ends at or before `offset` without wrapping. -/
theorem skip_before_cover {m : Chunks} {offset end_ : Nat} {x : Nat × List Byte}
    (hd : ChunksDisjoint m) (hne : ∀ y ∈ m, 1 ≤ y.2.length) (hx : x ∈ m)
    (hxo : x.1 ≤ offset) (hoe : offset ≤ end_) (he : end_ < sizeMod) :
    ∀ y ∈ m, y.1 < x.1 → y.1 < end_ ∧ wadd y.1 y.2.length ≤ offset := by
  intro y hy hlt
  have hdis := hd y hy x hx (fun h => by rw [h] at hlt; omega)
  have h1 := hne y hy
  have h2 := hne x hx
  unfold RangesDisjoint at hdis
  have hle : y.1 + y.2.length ≤ x.1 := by omega
  refine ⟨by omega, ?_⟩
  rw [wadd_eq (by omega)]
  omega

/-! ## Exact replace and overlap from below -/

/-- C12. Exact replace: for every chunk map whose chunks are pairwise disjoint and
non-empty (and, as the chunks of a device are, within its capacity) and that
holds a chunk at start offset `offset` with the same length as the non-empty
incoming `bytes`, `write(bytes, offset)` returns `none` and the resulting map
is the old map with only that chunk's bytes replaced by `bytes`; every other
entry and `used_chunks()` are unchanged. -/
theorem sparse_exact_replace (dev : SparseDataDevice) (bytes old : List Byte) (offset : Nat)
    (hcap : dev.size_ < sizeMod) (hs : SortedKeys dev.chunks_)
    (hin : InCap dev.size_ dev.chunks_)
    (hd : ChunksDisjoint dev.chunks_) (hne : ∀ y ∈ dev.chunks_, 1 ≤ y.2.length)
    (hm : (offset, old) ∈ dev.chunks_) (hlen : old.length = bytes.length)
    (hb1 : 1 ≤ bytes.length) :
    (dev.write bytes offset).1 = Error.none ∧
    (dev.write bytes offset).2.chunks_
      = dev.chunks_.map (fun x => if x.1 = offset then (offset, bytes) else x) ∧
    (dev.write bytes offset).2.used_chunks = dev.used_chunks := by
  have hb : offset + bytes.length ≤ dev.size_ := by
    have := hin (offset, old) hm
    simp only at this
    omega
  have hres : (dev.write bytes offset).2.chunks_
      = dev.chunks_.map (fun x => if x.1 = offset then (offset, bytes) else x) := by
    rw [write_inBounds dev bytes offset hcap hb]
    simp only
    rw [writeLoop_eq_branch]
    obtain ⟨post, hpost⟩ := writeBranch_skip_to bytes offset (offset + bytes.length)
      dev.chunks_ hs (offset, old) hm
      (skip_before_cover hd hne hm (Nat.le_refl _) (by omega) (by omega))
    rw [hpost]
    simp only [writeBranch, wadd_eq (show offset + old.length < sizeMod by omega)]
    rw [if_neg (by omega), if_neg (by omega), if_pos ⟨trivial, hlen⟩]
    exact mapInsert_eq_map hs hm
  refine ⟨by rw [write_inBounds dev bytes offset hcap hb], hres, ?_⟩
  simp only [used_chunks]
  rw [hres, List.length_map]

/-- C12 on a device of capacity 16 with three chunks: the middle one is rewritten in
place. -/
theorem sparse_exact_replace_witness :
    ((SparseDataDevice.mk 16 [(0, [1, 2]), (4, [3, 4, 5]), (9, [6])]).write [7, 8, 9] 4).1
      = Error.none ∧
    ((SparseDataDevice.mk 16 [(0, [1, 2]), (4, [3, 4, 5]), (9, [6])]).write [7, 8, 9] 4).2.chunks_
      = [(0, [1, 2]), (4, [7, 8, 9]), (9, [6])] ∧
    ((SparseDataDevice.mk 16 [(0, [1, 2]), (4, [3, 4, 5]), (9, [6])]).write [7, 8, 9] 4).2.chunks_
      = (SparseDataDevice.mk 16 [(0, [1, 2]), (4, [3, 4, 5]), (9, [6])]).chunks_.map
          (fun x => if x.1 = 4 then (4, [7, 8, 9]) else x) ∧
    ((SparseDataDevice.mk 16 [(0, [1, 2]), (4, [3, 4, 5]), (9, [6])]).write
      [7, 8, 9] 4).2.used_chunks
      = (SparseDataDevice.mk 16 [(0, [1, 2]), (4, [3, 4, 5]), (9, [6])]).used_chunks :=
  ⟨(sparse_exact_replace (SparseDataDevice.mk 16 [(0, [1, 2]), (4, [3, 4, 5]), (9, [6])])
      [7, 8, 9] [3, 4, 5] 4 (by decide) (by decide) (by decide) (by decide) (by decide)
      (by decide) rfl (by decide)).1,
    by decide,
    (sparse_exact_replace (SparseDataDevice.mk 16 [(0, [1, 2]), (4, [3, 4, 5]), (9, [6])])
      [7, 8, 9] [3, 4, 5] 4 (by decide) (by decide) (by decide) (by decide) (by decide)
      (by decide) rfl (by decide)).2⟩

/-- C13 (as amended). Overlap from below: for every chunk map whose chunks are
pairwise disjoint and non-empty, and every in-bounds `write(bytes, offset)` for
which some chunk `(s, old)` whose end `s + len(old)` does not wrap around
`size_t` satisfies `s ≤ offset < s + len(old)` with `s < offset`, or `s = offset`
and `len(bytes) < len(old)`, the write returns `none`, `used_chunks()` is
unchanged, every other entry is unchanged, and the chunk at `s` becomes the first
`offset - s` bytes of `old` followed by `bytes`, of length
`(offset + len(bytes)) - s`. -/
theorem sparse_overlap_from_below (dev : SparseDataDevice) (bytes old : List Byte)
    (offset s : Nat) (hcap : dev.size_ < sizeMod) (hs : SortedKeys dev.chunks_)
    (hd : ChunksDisjoint dev.chunks_) (hne : ∀ y ∈ dev.chunks_, 1 ≤ y.2.length)
    (hm : (s, old) ∈ dev.chunks_) (hcov : s ≤ offset ∧ offset < s + old.length)
    (hcase : s < offset ∨ (s = offset ∧ bytes.length < old.length))
    (hb : offset + bytes.length ≤ dev.size_) (hnw : s + old.length < sizeMod) :
    (dev.write bytes offset).1 = Error.none ∧
    (dev.write bytes offset).2.chunks_
      = dev.chunks_.map (fun x => if x.1 = s then (s, old.take (offset - s) ++ bytes) else x) ∧
    (dev.write bytes offset).2.used_chunks = dev.used_chunks ∧
    (old.take (offset - s) ++ bytes).length = (offset + bytes.length) - s := by
  have hres : (dev.write bytes offset).2.chunks_
      = dev.chunks_.map
          (fun x => if x.1 = s then (s, old.take (offset - s) ++ bytes) else x) := by
    rw [write_inBounds dev bytes offset hcap hb]
    simp only
    rw [writeLoop_eq_branch]
    obtain ⟨post, hpost⟩ := writeBranch_skip_to bytes offset (offset + bytes.length)
      dev.chunks_ hs (s, old) hm
      (skip_before_cover hd hne hm hcov.1 (by omega) (by omega))
    rw [hpost]
    simp only [writeBranch, wadd_eq hnw]
    by_cases hbrk : s ≥ offset + bytes.length
    · -- an empty write at the start of the chunk: the scan breaks
      have hso : s = offset := by omega
      have hbl : bytes = [] := List.length_eq_zero.1 (by omega)
      rw [if_pos hbrk]
      simp only
      rw [hso, hbl, Nat.sub_self, List.take_zero, List.append_nil]
      exact mapInsert_eq_map hs (hso ▸ hm)
    · rw [if_neg hbrk, if_neg (by omega), if_neg (by omega)]
      have hc2 : ¬(offset ≤ s ∧ offset + bytes.length ≥ wadd (s + old.length) (wsub s offset)) := by
        rintro ⟨h1, h2⟩
        have hso : s = offset := by omega
        rw [hso, wsub_eq (Nat.le_refl _) (by omega), Nat.sub_self, wadd_eq (by omega)] at h2
        omega
      rw [if_neg hc2, if_pos ⟨hcov.1, by omega⟩]
      simp only [wadd_eq hnw]
      have hn : wsub (wadd old.length (offset + bytes.length)) (s + old.length)
          = (offset - s) + bytes.length := by
        have := @wsub_wadd_below s old.length (offset + bytes.length)
          (by omega) (by omega) (by omega)
        rw [wadd_eq hnw] at this
        rw [this]; omega
      rw [hn, copyInto_resize_below old bytes (offset - s) (by omega)]
      exact mapInsert_eq_map hs hm
  refine ⟨by rw [write_inBounds dev bytes offset hcap hb], hres, ?_, ?_⟩
  · simp only [used_chunks]
    rw [hres, List.length_map]
  · rw [List.length_append, List.length_take]; omega

/-- C13 (as amended) on a device of capacity 16 with two chunks: a write starting
inside the first one and ending before its end. -/
theorem sparse_overlap_from_below_witness :
    ((SparseDataDevice.mk 16 [(0, [1, 2, 3, 4, 5]), (9, [6])]).write [7, 8] 1).1 = Error.none ∧
    ((SparseDataDevice.mk 16 [(0, [1, 2, 3, 4, 5]), (9, [6])]).write [7, 8] 1).2.chunks_
      = (SparseDataDevice.mk 16 [(0, [1, 2, 3, 4, 5]), (9, [6])]).chunks_.map
          (fun x => if x.1 = 0
            then (0, ([1, 2, 3, 4, 5] : List Byte).take (1 - 0) ++ [7, 8]) else x) ∧
    ((SparseDataDevice.mk 16 [(0, [1, 2, 3, 4, 5]), (9, [6])]).write [7, 8] 1).2.used_chunks
      = (SparseDataDevice.mk 16 [(0, [1, 2, 3, 4, 5]), (9, [6])]).used_chunks ∧
    (([1, 2, 3, 4, 5] : List Byte).take (1 - 0) ++ [7, 8]).length
      = (1 + ([7, 8] : List Byte).length) - 0 :=
  sparse_overlap_from_below (SparseDataDevice.mk 16 [(0, [1, 2, 3, 4, 5]), (9, [6])])
    [7, 8] [1, 2, 3, 4, 5] 1 0 (by decide) (by decide) (by decide) (by decide) (by decide)
    (by decide) (by decide) (by decide) (by decide)

/-- C13 (counterexample). On a `SparseDataDevice(2^64 - 1)` the call
`write({1,2,3,4,5}, 2^64 - 3)` is accepted (the sum wraps to 2) and stores one
chunk `(s, old)` with `s = 2^64 - 3`. The in-bounds `write({9}, 2^64 - 2)` has
`s < offset < s + len(old)`, but the scan computes the chunk's end as 2, passes
over the chunk and inserts `(2^64 - 2, {9})`: two chunks are stored and the
chunk at `s` keeps its bytes. -/
theorem sparse_overlap_from_below_counterexample :
    ((mk_fresh (sizeMod - 1)).write [1, 2, 3, 4, 5] (sizeMod - 3))
      = (Error.none, SparseDataDevice.mk (sizeMod - 1) [(sizeMod - 3, [1, 2, 3, 4, 5])]) ∧
    ChunksDisjoint [((sizeMod - 3 : Nat), ([1, 2, 3, 4, 5] : List Byte))] ∧
    (sizeMod - 2) + ([9] : List Byte).length ≤ sizeMod - 1 ∧
    (sizeMod - 3 < sizeMod - 2 ∧ sizeMod - 2 < (sizeMod - 3) + ([1, 2, 3, 4, 5] : List Byte).length) ∧
    (SparseDataDevice.mk (sizeMod - 1) [(sizeMod - 3, [1, 2, 3, 4, 5])]).write [9] (sizeMod - 2)
      = (Error.none, SparseDataDevice.mk (sizeMod - 1)
          [(sizeMod - 3, [1, 2, 3, 4, 5]), (sizeMod - 2, [9])]) := by
  decide

/-! ## Overlap from above -/

theorem copyInto_above {data d : List Byte} {c end_ : Nat} (hce : c ≤ end_)
    (hec : end_ ≤ c + d.length) (hcd : c + d.length < sizeMod)
    (hlen : data.length + (c + d.length - end_) < sizeMod) :
    copyInto (resize data (wadd data.length (wsub (c + d.length) end_)))
      ((resize data (wadd data.length (wsub (c + d.length) end_))).length
        - wsub (c + d.length) end_)
      (d.drop (wsub d.length (wsub (c + d.length) end_)))
      = data ++ d.drop (end_ - c) := by
  have ha : wsub (c + d.length) end_ = c + d.length - end_ := wsub_eq hec hcd
  rw [ha, wadd_eq hlen, wsub_eq (by omega) (by omega)]
  have hsrc : (d.drop (d.length - (c + d.length - end_))).length = c + d.length - end_ := by
    rw [List.length_drop]; omega
  have := copyInto_resize_above data (d.drop (d.length - (c + d.length - end_)))
  rw [hsrc] at this
  rw [this]
  congr 2; omega

/-- Overlap from above where the containment test does not wrap (the part of C17 the
code keeps): for every chunk map whose chunks are non-empty (pairwise disjoint or
not) and every in-bounds `write(bytes, offset)` with
`end = offset + len(bytes)` whose first chunk intersecting `[offset, end)` is
`(s, old)` with `offset < s < end ≤ s + len(old)`, provided
`s + len(old) + (s - offset)` does not wrap around `size_t`, the write returns
`none` and the resulting map is the old map with one added entry at key `offset`
whose bytes are `bytes` followed by the last `s + len(old) - end` bytes of `old`;
every previously stored entry is unchanged and `used_chunks()` grows by one. -/
theorem sparse_overlap_from_above (dev : SparseDataDevice) (bytes old : List Byte)
    (offset s : Nat) (hcap : dev.size_ < sizeMod) (hs : SortedKeys dev.chunks_)
    (hne : ∀ y ∈ dev.chunks_, 1 ≤ y.2.length) (hm : (s, old) ∈ dev.chunks_)
    (hfirst : ∀ y ∈ dev.chunks_, y.1 < s → ¬ intersects y offset (offset + bytes.length))
    (hpos : offset < s ∧ s < offset + bytes.length ∧ offset + bytes.length ≤ s + old.length)
    (hb : offset + bytes.length ≤ dev.size_)
    (hnw : s + old.length + (s - offset) < sizeMod) :
    (dev.write bytes offset).1 = Error.none ∧
    (∀ x, x ∈ (dev.write bytes offset).2.chunks_ ↔
      x = (offset, bytes ++ old.drop (offset + bytes.length - s)) ∨ x ∈ dev.chunks_) ∧
    SortedKeys (dev.write bytes offset).2.chunks_ ∧
    (dev.write bytes offset).2.used_chunks = dev.used_chunks + 1 ∧
    (old.drop (offset + bytes.length - s)).length = s + old.length - (offset + bytes.length) := by
  have hkey : ∀ x ∈ dev.chunks_, x.1 ≠ offset := by
    intro x hx hxo
    apply hfirst x hx (by omega)
    have := hne x hx
    unfold intersects
    omega
  have hres : (dev.write bytes offset).2.chunks_
      = mapInsert offset (bytes ++ old.drop (offset + bytes.length - s)) dev.chunks_ := by
    rw [write_inBounds dev bytes offset hcap hb]
    simp only
    rw [writeLoop_eq_branch]
    obtain ⟨post, hpost⟩ := writeBranch_skip_to bytes offset (offset + bytes.length)
      dev.chunks_ hs (s, old) hm
      (by
        intro y hy hlt
        have hni := hfirst y hy hlt
        unfold intersects at hni
        simp only at hlt
        have hle : y.1 + y.2.length ≤ offset := by omega
        refine ⟨by omega, ?_⟩
        rw [wadd_eq (by omega)]; exact hle)
    rw [hpost]
    have hcd : s + old.length < sizeMod := by omega
    simp only [writeBranch, wadd_eq hcd]
    have hc2 : ¬(offset ≤ s ∧ offset + bytes.length ≥ wadd (s + old.length) (wsub s offset)) := by
      rintro ⟨_, h2⟩
      rw [wsub_eq (by omega) (by omega), wadd_eq (by omega)] at h2
      omega
    rw [if_neg (by omega), if_neg (by omega), if_neg (by omega), if_neg hc2,
      if_neg (by omega), if_pos ⟨by omega, by omega⟩]
    simp only [wadd_eq hcd]
    rw [copyInto_above (by omega) hpos.2.2 hcd (by omega)]
  refine ⟨by rw [write_inBounds dev bytes offset hcap hb], ?_, ?_, ?_, ?_⟩
  · intro x
    rw [hres, mem_mapInsert hs]
    constructor
    · rintro (h | ⟨h, _⟩)
      · exact Or.inl h
      · exact Or.inr h
    · rintro (h | h)
      · exact Or.inl h
      · exact Or.inr ⟨h, hkey x h⟩
  · rw [hres]; exact sorted_mapInsert hs
  · simp only [used_chunks]
    rw [hres, length_mapInsert_of_not_mem hkey]
  · rw [List.length_drop]; omega

/-- Overlap from above on a device of capacity 16 with three chunks: a write starting
in the gap before the second chunk and ending inside it. -/
theorem sparse_overlap_from_above_witness :
    ((SparseDataDevice.mk 16 [(0, [1]), (4, [2, 3, 4]), (9, [5])]).write [7, 8, 9] 2).1
      = Error.none ∧
    (∀ x, x ∈ ((SparseDataDevice.mk 16 [(0, [1]), (4, [2, 3, 4]), (9, [5])]).write
        [7, 8, 9] 2).2.chunks_ ↔
      x = (2, [7, 8, 9] ++ ([2, 3, 4] : List Byte).drop (2 + ([7, 8, 9] : List Byte).length - 4))
        ∨ x ∈ (SparseDataDevice.mk 16 [(0, [1]), (4, [2, 3, 4]), (9, [5])]).chunks_) ∧
    SortedKeys ((SparseDataDevice.mk 16 [(0, [1]), (4, [2, 3, 4]), (9, [5])]).write
      [7, 8, 9] 2).2.chunks_ ∧
    ((SparseDataDevice.mk 16 [(0, [1]), (4, [2, 3, 4]), (9, [5])]).write
      [7, 8, 9] 2).2.used_chunks
      = (SparseDataDevice.mk 16 [(0, [1]), (4, [2, 3, 4]), (9, [5])]).used_chunks + 1 ∧
    (([2, 3, 4] : List Byte).drop (2 + ([7, 8, 9] : List Byte).length - 4)).length
      = 4 + ([2, 3, 4] : List Byte).length - (2 + ([7, 8, 9] : List Byte).length) :=
  sparse_overlap_from_above (SparseDataDevice.mk 16 [(0, [1]), (4, [2, 3, 4]), (9, [5])])
    [7, 8, 9] [2, 3, 4] 2 4 (by decide) (by decide) (by decide) (by decide) (by decide)
    (by decide) (by decide) (by decide)

/-- C17 (failing input). On a `SparseDataDevice(2^64 - 1)` holding the single chunk
`(s, old) = (2^64 - 4, {1,2,3})`, stored by an in-bounds write, the in-bounds
`write({7,8,9}, 2^64 - 6)` has `offset < s < end ≤ s + len(old)`. In the test
of the containment branch `cend + (coffset - offset)` is `2^64 - 1 + 2` and wraps
to 1, so that branch is taken although the write does not contain the chunk: the
chunk at `s` is erased and `(offset, {7,8,9})` is stored; `used_chunks()` stays 1. -/
theorem sparse_overlap_from_above_failing_input :
    (mk_fresh (sizeMod - 1)).write [1, 2, 3] (sizeMod - 4)
      = (Error.none, SparseDataDevice.mk (sizeMod - 1) [(sizeMod - 4, [1, 2, 3])]) ∧
    (sizeMod - 4) + ([1, 2, 3] : List Byte).length ≤ sizeMod - 1 ∧
    (sizeMod - 6) + ([7, 8, 9] : List Byte).length ≤ sizeMod - 1 ∧
    (sizeMod - 6 < sizeMod - 4 ∧ sizeMod - 4 < (sizeMod - 6) + ([7, 8, 9] : List Byte).length ∧
      (sizeMod - 6) + ([7, 8, 9] : List Byte).length
        ≤ (sizeMod - 4) + ([1, 2, 3] : List Byte).length) ∧
    wadd (wadd (sizeMod - 4) ([1, 2, 3] : List Byte).length) (wsub (sizeMod - 4) (sizeMod - 6)) = 1 ∧
    writeBranch [7, 8, 9] (sizeMod - 6) ((sizeMod - 6) + ([7, 8, 9] : List Byte).length)
        [(sizeMod - 4, [1, 2, 3])]
      = Branch.contain (sizeMod - 4) [1, 2, 3] ∧
    (SparseDataDevice.mk (sizeMod - 1) [(sizeMod - 4, [1, 2, 3])]).write [7, 8, 9] (sizeMod - 6)
      = (Error.none, SparseDataDevice.mk (sizeMod - 1) [(sizeMod - 6, [7, 8, 9])]) ∧
    ((SparseDataDevice.mk (sizeMod - 1) [(sizeMod - 4, [1, 2, 3])]).write
      [7, 8, 9] (sizeMod - 6)).2.used_chunks = 1 := by
  decide

/-- Overlap from left where the containment test does not wrap (the part of C14 the
code keeps): for a device holding exactly one chunk
`(s, old)` that lies within the capacity, and every write with
`offset < s < offset + len(bytes) ≤ s + len(old)`, provided
`s + len(old) + (s - offset)` does not wrap around `size_t`, the write returns
`none` and a following `read(offset, s + len(old) - offset)` returns `none` with
the first `s - offset` bytes of `bytes` followed by all of `old`. -/
theorem sparse_overlap_from_left_read (cap : Nat) (bytes old buf : List Byte) (offset s : Nat)
    (hcap : cap < sizeMod)
    (hpos : offset < s ∧ s < offset + bytes.length ∧ offset + bytes.length ≤ s + old.length)
    (hin : s + old.length ≤ cap) (hnw : s + old.length + (s - offset) < sizeMod) :
    ((SparseDataDevice.mk cap [(s, old)]).write bytes offset).1 = Error.none ∧
    ((SparseDataDevice.mk cap [(s, old)]).write bytes offset).2.read buf offset
        (s + old.length - offset)
      = (Error.none, bytes.take (s - offset) ++ old) := by
  have hcd : s + old.length < sizeMod := by omega
  have hw : (SparseDataDevice.mk cap [(s, old)]).write bytes offset
      = (Error.none, SparseDataDevice.mk cap
          [(offset, bytes ++ old.drop (offset + bytes.length - s)), (s, old)]) := by
    rw [write_inBounds _ bytes offset hcap (by simp only; omega)]
    simp only
    rw [writeLoop_eq_branch]
    simp only [writeBranch, wadd_eq hcd]
    have hc2 : ¬(offset ≤ s ∧ offset + bytes.length ≥ wadd (s + old.length) (wsub s offset)) := by
      rintro ⟨_, h2⟩
      rw [wsub_eq (by omega) (by omega), wadd_eq (by omega)] at h2
      omega
    rw [if_neg (by omega), if_neg (by omega), if_neg (by omega), if_neg hc2,
      if_neg (by omega), if_pos ⟨by omega, by omega⟩]
    simp only [wadd_eq hcd]
    rw [copyInto_above (by omega) hpos.2.2 hcd (by omega)]
    simp only [mapInsert]
    rw [if_pos hpos.1]
  rw [hw]
  refine ⟨rfl, ?_⟩
  rw [read_inBounds _ buf offset (s + old.length - offset) hcap (by simp only; omega)]
  simp only
  have hs1 : SortedKeys [(offset, bytes ++ old.drop (offset + bytes.length - s)), (s, old)] := by
    unfold SortedKeys
    simp only [List.pairwise_cons, List.mem_singleton, forall_eq, List.not_mem_nil,
      false_implies, implies_true, List.Pairwise.nil, and_true]
    exact hpos.1
  have hw1 : NoWrap [(offset, bytes ++ old.drop (offset + bytes.length - s)), (s, old)] := by
    intro x hx
    simp only [List.mem_cons, List.mem_singleton, List.not_mem_nil, or_false] at hx
    rcases hx with h | h
    · rw [h]; simp only [List.length_append, List.length_drop]; omega
    · rw [h]; exact hcd
  obtain ⟨hl, hg⟩ := readLoop_spec offset (s + old.length - offset) (by omega) _
    (List.replicate (s + old.length - offset) 0xff) hs1 hw1 (List.length_replicate _ _)
  congr 1
  apply List.ext_getElem?
  intro i
  by_cases hi : i < s + old.length - offset
  · rw [hg i hi]
    by_cases his : i < s - offset
    · have hcov : covers (offset, bytes ++ old.drop (offset + bytes.length - s)) (offset + i) := by
        unfold covers; simp only [List.length_append]; omega
      rw [byteAt_eq_of_greatest hs1 (List.mem_cons_self _ _) hcov]
      · simp only
        rw [List.getElem?_append_left (by omega), List.getElem?_append_left
          (by rw [List.length_take]; omega), List.getElem?_take_of_lt his,
          show offset + i - offset = i by omega,
          List.getElem?_eq_getElem (by omega : i < bytes.length), Option.or_some]
      · intro y hy hc
        simp only [List.mem_cons, List.mem_singleton, List.not_mem_nil, or_false] at hy
        rcases hy with h | h
        · rw [h]
        · rw [h] at hc; unfold covers at hc; simp only at hc; omega
    · have hcov : covers (s, old) (offset + i) := by
        unfold covers; simp only; omega
      rw [byteAt_eq_of_greatest hs1 (List.mem_cons_of_mem _ (List.mem_singleton_self _)) hcov]
      · simp only
        have htl : (bytes.take (s - offset)).length = s - offset := by
          rw [List.length_take]; omega
        rw [List.getElem?_append_right (by omega), htl,
          show offset + i - s = i - (s - offset) by omega,
          List.getElem?_eq_getElem (by omega : i - (s - offset) < old.length), Option.or_some]
      · intro y hy _
        simp only [List.mem_cons, List.mem_singleton, List.not_mem_nil, or_false] at hy
        rcases hy with h | h
        · rw [h]; simp only; omega
        · rw [h]
  · rw [List.getElem?_eq_none (by omega), List.getElem?_eq_none
      (by rw [List.length_append, List.length_take]; omega)]

/-- Overlap from left on the scenario of the repository's test: capacity 100, chunk
`(2, {1,2,3})`, `write({4,5,6}, 0)`, `read(0, 5)`. -/
theorem sparse_overlap_from_left_read_witness :
    ((SparseDataDevice.mk 100 [(2, [1, 2, 3])]).write [4, 5, 6] 0).1 = Error.none ∧
    ((SparseDataDevice.mk 100 [(2, [1, 2, 3])]).write [4, 5, 6] 0).2.read [] 0
        (2 + ([1, 2, 3] : List Byte).length - 0)
      = (Error.none, ([4, 5, 6] : List Byte).take (2 - 0) ++ [1, 2, 3]) :=
  sparse_overlap_from_left_read 100 [4, 5, 6] [1, 2, 3] [] 0 2 (by decide) (by decide)
    (by decide) (by decide)

/-- C14 (failing input). On a `SparseDataDevice(2^64 - 1)` holding exactly the chunk
`(s, old) = (2^64 - 4, {1,2,3})`, the in-bounds `write({7,8,9}, 2^64 - 6)` has
`offset < s < offset + len(bytes) ≤ s + len(old)`; the containment branch is
taken because `cend + (coffset - offset)` wraps to 1, the chunk is erased, and the
following in-bounds `read(2^64 - 6, 5)` returns `{7, 8, 9, 0xFF, 0xFF}`, not
`{7, 8, 1, 2, 3}`. -/
theorem sparse_overlap_from_left_read_failing_input :
    (sizeMod - 6) + ([7, 8, 9] : List Byte).length ≤ sizeMod - 1 ∧
    (sizeMod - 6 < sizeMod - 4 ∧ sizeMod - 4 < (sizeMod - 6) + ([7, 8, 9] : List Byte).length ∧
      (sizeMod - 6) + ([7, 8, 9] : List Byte).length
        ≤ (sizeMod - 4) + ([1, 2, 3] : List Byte).length) ∧
    ((SparseDataDevice.mk (sizeMod - 1) [(sizeMod - 4, [1, 2, 3])]).write
      [7, 8, 9] (sizeMod - 6)).1 = Error.none ∧
    ((SparseDataDevice.mk (sizeMod - 1) [(sizeMod - 4, [1, 2, 3])]).write
      [7, 8, 9] (sizeMod - 6)).2.read [] (sizeMod - 6)
        ((sizeMod - 4) + ([1, 2, 3] : List Byte).length - (sizeMod - 6))
      = (Error.none, [7, 8, 9, 0xff, 0xff]) ∧
    ([7, 8, 9] : List Byte).take ((sizeMod - 4) - (sizeMod - 6)) ++ [1, 2, 3]
      = [7, 8, 1, 2, 3] := by
  decide

/-! ## Writes that lose or keep bytes outside their range -/

/-- C15 (failing input). On the device of capacity 100 reached by
`write({1,2,3,4,5}, 0)`, the successful `write({9}, 1)` takes the
overlap-from-below branch and resizes the chunk to `end - coffset = 2` bytes:
the map becomes `(0, {1, 9})`. Address 2 lies outside `[1, 2)`; `read(2, 1)`
returns `{3}` before the write and `{0xFF}` after it. -/
theorem sparse_write_frame_failing_input :
    (∀ op ∈ [Op.write [1, 2, 3, 4, 5] 0], op.WF) ∧
    ((mk_fresh 100).run [Op.write [1, 2, 3, 4, 5] 0]).read [] 2 1 = (Error.none, [3]) ∧
    (((mk_fresh 100).run [Op.write [1, 2, 3, 4, 5] 0]).write [9] 1).1 = Error.none ∧
    ¬(1 ≤ 2 ∧ 2 < 1 + ([9] : List Byte).length) ∧
    (((mk_fresh 100).run [Op.write [1, 2, 3, 4, 5] 0]).write [9] 1).2.chunks_ = [(0, [1, 9])] ∧
    (((mk_fresh 100).run [Op.write [1, 2, 3, 4, 5] 0]).write [9] 1).2.read [] 2 1
      = (Error.none, [0xff]) := by
  decide

/-- C16 (failing input). On the device of capacity 100 reached by `write({1}, 2)`,
the chunk `(2, {1})` is the only one intersecting `[0, 4)` and lies inside it.
`write({5,6,7,8}, 0)` tests `end >= cend + (coffset - offset)`, that is `4 >= 5`,
so the containment branch is not taken; no later branch matches, and the
insertion after the loop stores `(0, {5,6,7,8})` next to the old chunk:
`used_chunks()` is 2 and `read(0, 4)` returns `{5, 6, 1, 8}`. -/
theorem sparse_full_containment_failing_input :
    ((mk_fresh 100).run [Op.write [1] 2]).chunks_ = [(2, [1])] ∧
    intersects ((2 : Nat), ([1] : List Byte)) 0 (0 + ([5, 6, 7, 8] : List Byte).length) ∧
    (0 ≤ 2 ∧ 0 + ([5, 6, 7, 8] : List Byte).length ≥ 2 + ([1] : List Byte).length) ∧
    writeBranch [5, 6, 7, 8] 0 4 [(2, [1])] = Branch.insert ∧
    ((mk_fresh 100).run [Op.write [1] 2]).write [5, 6, 7, 8] 0
      = (Error.none, SparseDataDevice.mk 100 [(0, [5, 6, 7, 8]), (2, [1])]) ∧
    (((mk_fresh 100).run [Op.write [1] 2]).write [5, 6, 7, 8] 0).2.used_chunks = 2 ∧
    (((mk_fresh 100).run [Op.write [1] 2]).write [5, 6, 7, 8] 0).2.read [] 0 4
      = (Error.none, [5, 6, 1, 8]) := by
  decide

/-! ## The early exit of `read` and the bounds check -/

theorem readLoopWithoutBreak_all_after (offset size : Nat) :
    ∀ (m : Chunks) (buf : List Byte), (∀ x ∈ m, x.1 ≥ wadd offset size) →
      readLoopWithoutBreak offset size m buf = buf := by
  intro m
  induction m with
  | nil => intro buf _; rfl
  | cons y rest ih =>
    intro buf h
    obtain ⟨c, d⟩ := y
    simp only [readLoopWithoutBreak]
    rw [if_pos (h (c, d) (List.mem_cons_self _ _))]
    exact ih buf (fun x hx => h x (List.mem_cons_of_mem _ hx))

theorem readLoop_eq_withoutBreak (offset size : Nat) :
    ∀ (m : Chunks) (buf : List Byte), SortedKeys m →
      readLoop offset size m buf = readLoopWithoutBreak offset size m buf := by
  intro m
  induction m with
  | nil => intro buf _; rfl
  | cons y rest ih =>
    intro buf hs
    obtain ⟨c, d⟩ := y
    unfold SortedKeys at hs
    rw [List.pairwise_cons] at hs
    obtain ⟨hhead, htail⟩ := hs
    simp only [readLoop, readLoopWithoutBreak]
    split_ifs with h1 h2
    · symm
      apply readLoopWithoutBreak_all_after
      intro x hx
      have := hhead x hx
      simp only at this
      omega
    · exact ih buf htail
    · exact ih _ htail

/-- C18. The early exit of `read` is only an optimisation: for every chunk map (keys
ascending) and every in-bounds `read(offset, length)`, the buffer produced by the
loop that breaks at the first chunk starting at or after `offset + length` is
the buffer produced by the same overlay loop without the break. -/
theorem sparse_read_break_is_optimisation (dev : SparseDataDevice) (buf : List Byte)
    (offset length : Nat) (hs : SortedKeys dev.chunks_) (hcap : dev.size_ < sizeMod)
    (hb : offset + length ≤ dev.size_) :
    dev.read buf offset length
      = (Error.none,
          readLoopWithoutBreak offset length dev.chunks_ (List.replicate length 0xff)) := by
  rw [read_inBounds dev buf offset length hcap hb, readLoop_eq_withoutBreak offset length _ _ hs]

/-- C18 on overlapping chunks, two of them beyond the window: `read(1, 4)`. -/
theorem sparse_read_break_is_optimisation_witness :
    (SparseDataDevice.mk 16 [(0, [4, 5, 6, 2, 3]), (2, [1, 2, 3]), (5, [7]), (9, [8, 9])]).read
      [] 1 4
      = (Error.none,
          readLoopWithoutBreak 1 4
            (SparseDataDevice.mk 16
              [(0, [4, 5, 6, 2, 3]), (2, [1, 2, 3]), (5, [7]), (9, [8, 9])]).chunks_
            (List.replicate 4 0xff)) :=
  sparse_read_break_is_optimisation
    (SparseDataDevice.mk 16 [(0, [4, 5, 6, 2, 3]), (2, [1, 2, 3]), (5, [7]), (9, [8, 9])]) []
    1 4 (by decide) (by decide) (by decide)

theorem sizeMod_eq : sizeMod = 2 ^ 64 := by
  unfold sizeMod; norm_num

/-- C19. The bounds check is evaluated in wrapping `size_t` arithmetic: `read`,
`write` (with `length = len(bytes)`) and `erase` each return `out_of_bounds` if
and only if `(offset + length) mod 2^64 > capacity`. -/
theorem sparse_bounds_check_wraps (dev : SparseDataDevice) (buf bytes : List Byte)
    (offset length : Nat) :
    ((dev.read buf offset length).1 = Error.out_of_bounds ↔
      (offset + length) % 2 ^ 64 > dev.size_) ∧
    ((dev.write bytes offset).1 = Error.out_of_bounds ↔
      (offset + bytes.length) % 2 ^ 64 > dev.size_) ∧
    ((dev.erase offset length).1 = Error.out_of_bounds ↔
      (offset + length) % 2 ^ 64 > dev.size_) := by
  rw [← sizeMod_eq]
  refine ⟨?_, ?_, ?_⟩
  · unfold SparseDataDevice.read wadd
    split_ifs with h
    · exact ⟨fun _ => h, fun _ => rfl⟩
    · exact ⟨fun h1 => (by cases h1), fun h1 => absurd h1 h⟩
  · unfold SparseDataDevice.write wadd
    split_ifs with h
    · exact ⟨fun _ => h, fun _ => rfl⟩
    · exact ⟨fun h1 => (by cases h1), fun h1 => absurd h1 h⟩
  · unfold SparseDataDevice.erase wadd
    split_ifs with h
    · exact ⟨fun _ => h, fun _ => rfl⟩
    · exact ⟨fun h1 => (by cases h1), fun h1 => absurd h1 h⟩

/-! ## Index safety of `write` -/

/-- The tests that hold at the chunk where the scan of `write` leaves by one of the
three branches that compute with the chunk's extent. -/
theorem writeBranch_conditions (data : List Byte) (offset end_ : Nat) :
    ∀ rest : Chunks,
      (∀ c d, writeBranch data offset end_ rest = Branch.contain c d →
        (c, d) ∈ rest ∧ offset ≤ c) ∧
      (∀ c d, writeBranch data offset end_ rest = Branch.below c d →
        (c, d) ∈ rest ∧ c < end_ ∧ offset < wadd c d.length ∧ c ≤ offset) ∧
      (∀ c d, writeBranch data offset end_ rest = Branch.above c d →
        (c, d) ∈ rest ∧ c < end_ ∧ offset < wadd c d.length ∧ offset < c ∧
          end_ ≤ wadd c d.length) := by
  intro rest
  induction rest with
  | nil =>
    simp only [writeBranch]
    refine ⟨?_, ?_, ?_⟩ <;> (intro c d h; cases h)
  | cons y rest ih =>
    obtain ⟨c0, d0⟩ := y
    obtain ⟨ih1, ih2, ih3⟩ := ih
    simp only [writeBranch]
    split_ifs with h1 h2 h3 h4 h5 h6
    · refine ⟨?_, ?_, ?_⟩ <;> (intro c d h; cases h)
    · refine ⟨?_, ?_, ?_⟩
      · intro c d h; exact ⟨List.mem_cons_of_mem _ (ih1 c d h).1, (ih1 c d h).2⟩
      · intro c d h; exact ⟨List.mem_cons_of_mem _ (ih2 c d h).1, (ih2 c d h).2⟩
      · intro c d h; exact ⟨List.mem_cons_of_mem _ (ih3 c d h).1, (ih3 c d h).2⟩
    · refine ⟨?_, ?_, ?_⟩ <;> (intro c d h; cases h)
    · refine ⟨?_, ?_, ?_⟩
      · intro c d h
        cases h
        exact ⟨List.mem_cons_self _ _, h4.1⟩
      · intro c d h; cases h
      · intro c d h; cases h
    · refine ⟨?_, ?_, ?_⟩
      · intro c d h; cases h
      · intro c d h
        cases h
        exact ⟨List.mem_cons_self _ _, by omega, by omega, h5.1⟩
      · intro c d h; cases h
    · refine ⟨?_, ?_, ?_⟩
      · intro c d h; cases h
      · intro c d h; cases h
      · intro c d h
        cases h
        exact ⟨List.mem_cons_self _ _, by omega, by omega, by omega, h6.2⟩
    · refine ⟨?_, ?_, ?_⟩
      · intro c d h; exact ⟨List.mem_cons_of_mem _ (ih1 c d h).1, (ih1 c d h).2⟩
      · intro c d h; exact ⟨List.mem_cons_of_mem _ (ih2 c d h).1, (ih2 c d h).2⟩
      · intro c d h; exact ⟨List.mem_cons_of_mem _ (ih3 c d h).1, (ih3 c d h).2⟩

theorem chunk_end_no_wrap {c l bound : Nat} (hl : l < sizeMod) (hc : c ≤ bound)
    (hb : bound < sizeMod) (h : bound < wadd c l ∨ (c < bound ∧ bound ≤ wadd c l)) :
    c + l < sizeMod := by
  unfold wadd sizeMod at *
  omega

/-- C20 (as amended). Index safety of `write`: for every chunk map and every
`write(bytes, offset)` with `offset + len(bytes) ≤ capacity` (no wrap-around),
every copy stays inside its vectors. Where the containment test evaluates
`coffset - offset`, `offset ≤ coffset`. In the overlap-from-below branch the
chunk's end does not wrap, the new size `cdata.size() + end - cend` is computed
as `end - s`, which is `≥ len(bytes)`, and the subtraction of `cend` does not
underflow when the sum `cdata.size() + end` does not wrap. In the
overlap-from-above branch the chunk's end does not wrap, `additional = cend - end`
does not underflow and is `≤` the existing chunk's length, so
`cdata.size() - additional` does not underflow, and the new chunk's length
`len(bytes) + additional` does not wrap. -/
theorem sparse_write_index_safety (dev : SparseDataDevice) (bytes : List Byte) (offset : Nat)
    (hcap : dev.size_ < sizeMod) (hlen : ∀ x ∈ dev.chunks_, x.2.length < sizeMod)
    (hb : offset + bytes.length ≤ dev.size_) :
    (∀ c d, writeBranch bytes offset (offset + bytes.length) dev.chunks_ = Branch.contain c d →
      offset ≤ c) ∧
    (∀ c d, writeBranch bytes offset (offset + bytes.length) dev.chunks_ = Branch.below c d →
      c + d.length < sizeMod ∧
      wsub (wadd d.length (offset + bytes.length)) (wadd c d.length)
        = (offset + bytes.length) - c ∧
      c ≤ offset + bytes.length ∧
      bytes.length ≤ (offset + bytes.length) - c ∧
      (d.length + (offset + bytes.length) < sizeMod →
        wadd c d.length ≤ wadd d.length (offset + bytes.length))) ∧
    (∀ c d, writeBranch bytes offset (offset + bytes.length) dev.chunks_ = Branch.above c d →
      c + d.length < sizeMod ∧
      offset + bytes.length ≤ wadd c d.length ∧
      wsub (wadd c d.length) (offset + bytes.length) = c + d.length - (offset + bytes.length) ∧
      wsub (wadd c d.length) (offset + bytes.length) ≤ d.length ∧
      wsub d.length (wsub (wadd c d.length) (offset + bytes.length))
        = d.length - (c + d.length - (offset + bytes.length)) ∧
      wadd bytes.length (wsub (wadd c d.length) (offset + bytes.length))
        = bytes.length + (c + d.length - (offset + bytes.length))) := by
  obtain ⟨h1, h2, h3⟩ := writeBranch_conditions bytes offset (offset + bytes.length) dev.chunks_
  refine ⟨fun c d h => (h1 c d h).2, ?_, ?_⟩
  · intro c d h
    obtain ⟨hm, hce, hoc, hco⟩ := h2 c d h
    have hdl := hlen (c, d) hm
    simp only at hdl
    have hnw : c + d.length < sizeMod :=
      chunk_end_no_wrap hdl hco (by omega) (Or.inl hoc)
    have hn := @wsub_wadd_below c d.length (offset + bytes.length) (by omega) hnw (by omega)
    refine ⟨hnw, hn, by omega, by omega, ?_⟩
    intro hsum
    rw [wadd_eq hnw, wadd_eq hsum]
    omega
  · intro c d h
    obtain ⟨hm, hce, hoc, hco, hec⟩ := h3 c d h
    have hdl := hlen (c, d) hm
    simp only at hdl
    have hnw : c + d.length < sizeMod :=
      chunk_end_no_wrap hdl (Nat.le_of_lt hce) (by omega) (Or.inr ⟨hce, hec⟩)
    rw [wadd_eq hnw] at hec ⊢
    have ha : wsub (c + d.length) (offset + bytes.length)
        = c + d.length - (offset + bytes.length) := wsub_eq hec hnw
    rw [ha]
    refine ⟨hnw, hec, rfl, by omega, wsub_eq (by omega) hdl, wadd_eq (by omega)⟩

/-- C20 (as amended) on a device of capacity 16 with two chunks: a write starting
inside the first chunk, which takes the overlap-from-below branch. -/
theorem sparse_write_index_safety_witness :
    writeBranch [7, 8] 1 (1 + ([7, 8] : List Byte).length)
        (SparseDataDevice.mk 16 [(0, [1, 2, 3, 4, 5]), (9, [6])]).chunks_
      = Branch.below 0 [1, 2, 3, 4, 5] ∧
    (0 + ([1, 2, 3, 4, 5] : List Byte).length < sizeMod ∧
      wsub (wadd ([1, 2, 3, 4, 5] : List Byte).length (1 + ([7, 8] : List Byte).length))
          (wadd 0 ([1, 2, 3, 4, 5] : List Byte).length)
        = (1 + ([7, 8] : List Byte).length) - 0 ∧
      0 ≤ 1 + ([7, 8] : List Byte).length ∧
      ([7, 8] : List Byte).length ≤ (1 + ([7, 8] : List Byte).length) - 0 ∧
      (([1, 2, 3, 4, 5] : List Byte).length + (1 + ([7, 8] : List Byte).length) < sizeMod →
        wadd 0 ([1, 2, 3, 4, 5] : List Byte).length
          ≤ wadd ([1, 2, 3, 4, 5] : List Byte).length (1 + ([7, 8] : List Byte).length))) :=
  ⟨by decide,
    (sparse_write_index_safety (SparseDataDevice.mk 16 [(0, [1, 2, 3, 4, 5]), (9, [6])])
      [7, 8] 1 (by decide) (by decide) (by decide)).2.1 0 [1, 2, 3, 4, 5] (by decide)⟩

/-- C20 (counterexample). On a `SparseDataDevice(2^64 - 1)` holding the chunk
`(2^64 - 5, {1,2,3})`, stored by an in-bounds write, the in-bounds
`write({9}, 2^64 - 3)` takes the overlap-from-below branch. There
`cdata.size() + end` is `3 + (2^64 - 2)` and wraps to 1, which is below
`cend = 2^64 - 2`: the subtraction `1 - cend` underflows, and wraps to 3. -/
theorem sparse_write_index_safety_counterexample :
    (mk_fresh (sizeMod - 1)).write [1, 2, 3] (sizeMod - 5)
      = (Error.none, SparseDataDevice.mk (sizeMod - 1) [(sizeMod - 5, [1, 2, 3])]) ∧
    (sizeMod - 3) + ([9] : List Byte).length ≤ sizeMod - 1 ∧
    writeBranch [9] (sizeMod - 3) ((sizeMod - 3) + ([9] : List Byte).length)
        [(sizeMod - 5, [1, 2, 3])]
      = Branch.below (sizeMod - 5) [1, 2, 3] ∧
    wadd ([1, 2, 3] : List Byte).length ((sizeMod - 3) + ([9] : List Byte).length) = 1 ∧
    wadd (sizeMod - 5) ([1, 2, 3] : List Byte).length = sizeMod - 2 ∧
    1 < sizeMod - 2 ∧
    wsub 1 (sizeMod - 2) = 3 := by
  decide

/-! ## Writes that are merged into a stored chunk -/

theorem mapErase_of_keys_ne {k : Nat} {m : Chunks} (h : ∀ x ∈ m, x.1 ≠ k) : mapErase k m = m := by
  unfold mapErase
  rw [List.filter_eq_self]
  intro x hx
  rw [decide_eq_true_iff]
  exact h x hx

theorem mapInsert_mapErase {k : Nat} {v : List Byte} {m : Chunks} (hs : SortedKeys m) :
    mapInsert k v (mapErase k m) = mapInsert k v m := by
  induction m with
  | nil => rfl
  | cons y rest ih =>
    obtain ⟨c, d⟩ := y
    unfold SortedKeys at hs
    rw [List.pairwise_cons] at hs
    obtain ⟨hhead, htail⟩ := hs
    by_cases hkc : k = c
    · subst hkc
      have hrest : mapErase k rest = rest :=
        mapErase_of_keys_ne (fun x hx => by have := hhead x hx; simp only at this; omega)
      have hdrop : mapErase k ((k, d) :: rest) = rest := by
        unfold mapErase at hrest ⊢
        rw [List.filter_cons_of_neg (by simp), hrest]
      rw [hdrop]
      simp only [mapInsert]
      rw [if_neg (by omega), if_pos trivial]
      cases rest with
      | nil => rfl
      | cons z zs =>
        obtain ⟨c1, d1⟩ := z
        have := hhead (c1, d1) (List.mem_cons_self _ _)
        simp only at this
        simp only [mapInsert]
        rw [if_pos this]
    · have hkeep : mapErase k ((c, d) :: rest) = (c, d) :: mapErase k rest := by
        unfold mapErase
        rw [List.filter_cons_of_pos (by simp; omega)]
      rw [hkeep]
      by_cases hlt : k < c
      · have hrest : mapErase k rest = rest :=
          mapErase_of_keys_ne (fun x hx => by have := hhead x hx; simp only at this; omega)
        rw [hrest]
      · simp only [mapInsert]
        rw [if_neg hlt, if_neg hkc, if_neg hlt, if_neg hkc, ih htail]

/-- A write whose offset lies inside a stored chunk `(s, old)` is merged into it: on
pairwise disjoint non-empty chunks within the capacity, the map after an
in-bounds `write(bytes, offset)` with `s ≤ offset < s + len(old)` is the old map
with `(s, old)` replaced by the first `offset - s` bytes of `old` followed by
`bytes`. -/
theorem write_merges_into_cover (dev : SparseDataDevice) (bytes old : List Byte)
    (offset s : Nat) (hcap : dev.size_ < sizeMod) (hs : SortedKeys dev.chunks_)
    (hin : InCap dev.size_ dev.chunks_) (hd : ChunksDisjoint dev.chunks_)
    (hne : ∀ y ∈ dev.chunks_, 1 ≤ y.2.length) (hm : (s, old) ∈ dev.chunks_)
    (hcov : s ≤ offset ∧ offset < s + old.length) (hb : offset + bytes.length ≤ dev.size_) :
    (dev.write bytes offset).2.chunks_
      = dev.chunks_.map
          (fun x => if x.1 = s then (s, old.take (offset - s) ++ bytes) else x) := by
  have hnw : s + old.length < sizeMod := by
    have := hin (s, old) hm
    simp only at this
    omega
  rw [write_inBounds dev bytes offset hcap hb]
  simp only
  rw [writeLoop_eq_branch]
  obtain ⟨post, hpost⟩ := writeBranch_skip_to bytes offset (offset + bytes.length)
    dev.chunks_ hs (s, old) hm
    (skip_before_cover hd hne hm hcov.1 (by omega) (by omega))
  rw [hpost]
  simp only [writeBranch, wadd_eq hnw]
  by_cases hbrk : s ≥ offset + bytes.length
  · have hso : s = offset := by omega
    have hbl : bytes = [] := List.length_eq_zero.1 (by omega)
    rw [if_pos hbrk]
    simp only
    rw [hso, hbl, Nat.sub_self, List.take_zero, List.append_nil]
    exact mapInsert_eq_map hs (hso ▸ hm)
  · rw [if_neg hbrk, if_neg (by omega)]
    by_cases h1 : s = offset ∧ old.length = bytes.length
    · rw [if_pos h1]
      simp only
      rw [h1.1, Nat.sub_self, List.take_zero, List.nil_append]
      exact mapInsert_eq_map hs (h1.1 ▸ hm)
    · rw [if_neg h1]
      by_cases h2 : offset ≤ s ∧ offset + bytes.length ≥ wadd (s + old.length) (wsub s offset)
      · have hso : s = offset := by omega
        rw [if_pos h2]
        simp only
        rw [hso, Nat.sub_self, List.take_zero, List.nil_append, mapInsert_mapErase hs]
        exact mapInsert_eq_map hs (hso ▸ hm)
      · rw [if_neg h2, if_pos ⟨hcov.1, by omega⟩]
        simp only [wadd_eq hnw]
        have hn : wsub (wadd old.length (offset + bytes.length)) (s + old.length)
            = (offset - s) + bytes.length := by
          have := @wsub_wadd_below s old.length (offset + bytes.length)
            (by omega) (by omega) (by omega)
          rw [wadd_eq hnw] at this
          rw [this]; omega
        rw [hn, copyInto_resize_below old bytes (offset - s) (by omega)]
        exact mapInsert_eq_map hs hm

theorem apply_coalesced (cap : Nat) (hcap : cap < sizeMod) (dev : SparseDataDevice) (op : Op)
    (hinv : (dev.size_ = cap ∧ SortedKeys dev.chunks_ ∧ InCap cap dev.chunks_ ∧
      NonAdjacent dev.chunks_) ∧ ChunksDisjoint dev.chunks_ ∧
      ∀ x ∈ dev.chunks_, 1 ≤ x.2.length)
    (hop : MergingWrite dev op) :
    ((dev.apply op).2.size_ = cap ∧ SortedKeys (dev.apply op).2.chunks_ ∧
      InCap cap (dev.apply op).2.chunks_ ∧ NonAdjacent (dev.apply op).2.chunks_) ∧
      ChunksDisjoint (dev.apply op).2.chunks_ ∧
      ∀ x ∈ (dev.apply op).2.chunks_, 1 ≤ x.2.length := by
  have h4 := hinv.1
  obtain ⟨⟨hsz, hs, hin, _⟩, hd, hne⟩ := hinv
  refine ⟨apply_nonAdjacent cap hcap dev op h4 hop, ?_, ?_⟩
  · cases op with
    | erase offset size => exact absurd hop (by simp [MergingWrite])
    | write data offset =>
      obtain ⟨_, hb, hT1, _⟩ := hop
      simp only [apply]
      rw [write_inBounds dev data offset (by omega) hb]
      exact writeLoop_disjoint hcap hs hin hd (by omega)
        (fun x hx h => Nat.le_of_lt (hT1 x hx h))
  · cases op with
    | erase offset size => exact absurd hop (by simp [MergingWrite])
    | write data offset =>
      obtain ⟨hne1, hb, _, _⟩ := hop
      refine (apply_nonEmpty cap hcap dev (Op.write data offset) ⟨hsz, hin, hne⟩ ⟨?_, ?_⟩).2.2
      · unfold Op.InBounds; simp only [Op.offset, Op.length]; omega
      · intro d o he
        cases he
        exact hne1

end FlashDevice
